import Mathlib

/-!
Verification of the sux Golomb-Rice bit-stream codec (RiceBitVector builder
and reader) and the Fenwick-tree operation contract, via a shallow
embedding of the C++ sources into Lean.

Machine words are modelled as natural numbers kept below 2 ^ 64, with
explicit reductions modulo 2 ^ 64 wherever the C code can overflow.  The
growable word buffer (util::Vector) is modelled as a list of words.
Fallible operations (reads past the buffer, assertion failures) return
Option.
-/

namespace Sux

/-- Modelled from the spec: the supplied primitive "index of lowest set bit"
(rho from common.hpp, which is not under src/).  Fuel-based structural
recursion so that the kernel can evaluate it. -/
def rhoAux : Nat → Nat → Nat
  | 0, _ => 0
  | fuel + 1, w => if w % 2 = 1 then 0 else rhoAux fuel (w / 2) + 1

/-- Modelled from the spec: index of the lowest set bit of a 64-bit word.
Applied only to nonzero words (rho of 0 is undefined in the source). -/
def rho (w : Nat) : Nat := rhoAux 64 w

/-- Modelled from the spec: the supplied primitive "count set bits in a word"
(nu from common.hpp, which is not under src/). -/
def nuAux : Nat → Nat → Nat
  | 0, _ => 0
  | fuel + 1, w => w % 2 + nuAux fuel (w / 2)

/-- Modelled from the spec: population count of a 64-bit word. -/
def nu (w : Nat) : Nat := nuAux 64 w

/-- Modelled from the spec: the supplied primitive "index of the k-th set bit
in a word" (select64 from common.hpp, which is not under src/); k counts
from 0.  Applied only when the word has more than k set bits. -/
def selAux : Nat → Nat → Nat → Nat
  | 0, _, _ => 0
  | fuel + 1, w, k =>
    if w % 2 = 1 then
      (if k = 0 then 0 else selAux fuel (w / 2) (k - 1) + 1)
    else selAux fuel (w / 2) k + 1

/-- Modelled from the spec: index of the k-th (0-based) set bit of a 64-bit
word. -/
def select64 (w k : Nat) : Nat := selAux 64 w k

/-- Modelled from the spec: util::Vector resize (Vector.hpp is not under
src/); the buffer is an array of 64-bit words, grown with zero-initialised
words, and its logical size is set to exactly the requested word count. -/
def resize (n : Nat) (d : List Nat) : List Nat :=
  (d ++ List.replicate (n - d.length) 0).take n

/-- State of RiceBitVector::Builder: the word buffer and the bit cursor. -/
structure Builder where
  data : List Nat
  bit_count : Nat
  deriving Repr, DecidableEq

/-- Builder() delegates to Builder(16): sixteen zero-initialised words. -/
def builder0 : Builder := ⟨List.replicate 16 0, 0⟩

/-- RiceBitVector::Builder::appendFixed, translated line by line.  All
64-bit overflow in the C code is made explicit with reductions mod 2 ^ 64. -/
def appendFixed (st : Builder) (v log2golomb : Nat) : Builder :=
  let lower_bits := v % 2 ^ log2golomb
  let used_bits := st.bit_count % 64
  let d := resize (((st.bit_count + log2golomb + 7) / 8 + 7 + 7) / 8) st.data
  let idx := st.bit_count / 64
  let cur_word := d.getD idx 0 ||| (lower_bits <<< used_bits) % 2 ^ 64
  if used_bits + log2golomb > 64 then
    ⟨(d.set idx cur_word).set (idx + 1) (lower_bits >>> (64 - used_bits)),
      st.bit_count + log2golomb⟩
  else
    ⟨d.set idx cur_word, st.bit_count + log2golomb⟩

/-- Body of the write loop of RiceBitVector::Builder::appendUnaryAll: skip u
zero bits, then set the terminating one bit. -/
def unaryStep (st : Builder) (u : Nat) : Builder :=
  let bc := st.bit_count + u
  ⟨st.data.set (bc / 64) (st.data.getD (bc / 64) 0 ||| 1 <<< (bc % 64)), bc + 1⟩

/-- RiceBitVector::Builder::appendUnaryAll: one up-front resize to the total
bit requirement, then the write loop. -/
def appendUnaryAll (st : Builder) (unary : List Nat) : Builder :=
  let bit_inc := (unary.map (· + 1)).sum
  unary.foldl unaryStep
    ⟨resize (((st.bit_count + bit_inc + 7) / 8 + 7 + 7) / 8) st.data, st.bit_count⟩

/-- RiceBitVector::Builder::getBits: the logical bit count of the builder. -/
def Builder.getBits (st : Builder) : Nat := st.bit_count

/-- A sealed RiceBitVector: just the word buffer. -/
structure RiceBitVector where
  data : List Nat
  deriving Repr, DecidableEq

/-- RiceBitVector::Builder::build: trimToFit only shrinks the allocated
capacity to the logical size, so the word list is unchanged. -/
def Builder.build (st : Builder) : RiceBitVector := ⟨st.data⟩

/-- RiceBitVector::getBits: data.size() * sizeof(uint64_t), exactly as in
the source (sizeof(uint64_t) = 8). -/
def RiceBitVector.getBits (v : RiceBitVector) : Nat := v.data.length * 8

/-- Reader cursor state of RiceBitVector: the buffer plus the four cursor
fields.  valid_lower_bits_unary is a C int, hence modelled as an integer. -/
structure RState where
  data : List Nat
  curr_fixed_offset : Nat
  curr_window_unary : Nat
  curr_ptr_unary : Nat
  valid_lower_bits_unary : Int
  deriving Repr, DecidableEq

/-- C semantics of adding a signed int to a uint64_t variable. -/
def uadd64 (a : Nat) (b : Int) : Nat := (((a : Int) + b).emod (2 ^ 64)).toNat

/-- Byte j of the little-endian byte image of the word buffer. -/
def byteAt (d : List Nat) (j : Nat) : Nat := d.getD (j / 8) 0 >>> (8 * (j % 8)) % 256

/-- The unaligned 8-byte memcpy of readNext: bytes b .. b+7 of the buffer
assembled as a little-endian 64-bit value. -/
def read64le (d : List Nat) (b : Nat) : Nat :=
  byteAt d b ||| byteAt d (b + 1) <<< 8 ||| byteAt d (b + 2) <<< 16 |||
    byteAt d (b + 3) <<< 24 ||| byteAt d (b + 4) <<< 32 ||| byteAt d (b + 5) <<< 40 |||
    byteAt d (b + 6) <<< 48 ||| byteAt d (b + 7) <<< 56

/-- The fixed-bits extraction of readNext: memcpy 8 bytes at byte offset
off / 8, shift right by off % 8 and mask to width l. -/
def fixedRead (d : List Nat) (off l : Nat) : Nat :=
  read64le d (off / 8) >>> (off % 8) % 2 ^ l

/-- The word-loading loop of readNext: load words starting at index ptr
until a nonzero one is found; returns the count of zero words skipped, the
nonzero word, and the pointer past it.  Reading past the buffer is the
failure case. -/
def findNonzeroAux : Nat → List Nat → Nat → Option (Nat × Nat × Nat)
  | 0, _, _ => none
  | fuel + 1, data, ptr =>
    match data.get? ptr with
    | none => none
    | some w =>
      if w = 0 then
        match findNonzeroAux fuel data (ptr + 1) with
        | none => none
        | some (z, w2, p2) => some (z + 1, w2, p2)
      else some (0, w, ptr + 1)

/-- RiceBitVector::readNext, translated line by line.  The value uint64_t
arithmetic is made explicit with reductions mod 2 ^ 64. -/
def readNext (st : RState) (log2golomb : Nat) : Option (Nat × RState) :=
  match
    (if st.curr_window_unary = 0 then
      match findNonzeroAux (st.data.length + 1) st.data st.curr_ptr_unary with
      | none => none
      | some (z, w, p) =>
        some ((uadd64 0 st.valid_lower_bits_unary + 64 * z) % 2 ^ 64, w, p, (64 : Int))
    else
      some (0, st.curr_window_unary, st.curr_ptr_unary, st.valid_lower_bits_unary)) with
  | none => none
  | some (r, w, p, valid) =>
    let pos := rho w
    some ((((r + pos) % 2 ^ 64) <<< log2golomb) % 2 ^ 64 |||
        fixedRead st.data st.curr_fixed_offset log2golomb,
      { st with
        curr_window_unary := w >>> pos >>> 1,
        curr_ptr_unary := p,
        valid_lower_bits_unary := valid - ((pos : Int) + 1),
        curr_fixed_offset := st.curr_fixed_offset + log2golomb })

/-- The word-consuming loop of RiceBitVector::skipSubtree: while the current
window holds fewer set bits than are still missing, consume it whole and
load the next word. -/
def skipLoop : Nat → List Nat → Nat → Nat → Nat → Int → Option (Nat × Nat × Nat × Int)
  | 0, _, _, _, _, _ => none
  | fuel + 1, data, window, ptr, missing, valid =>
    let cnt := nu window
    if cnt < missing then
      match data.get? ptr with
      | none => none
      | some w => skipLoop fuel data w (ptr + 1) (missing - cnt) 64
    else some (window, ptr, missing, valid)

/-- RiceBitVector::skipSubtree.  The assert(nodes > 0) of the source is the
failure case nodes = 0. -/
def skipSubtree (st : RState) (nodes fixed_len : Nat) : Option RState :=
  if nodes = 0 then none
  else
    match skipLoop (st.data.length + 1) st.data st.curr_window_unary st.curr_ptr_unary
        nodes st.valid_lower_bits_unary with
    | none => none
    | some (w, p, missing, valid) =>
      let cnt := select64 w (missing - 1)
      some { st with
        curr_window_unary := w >>> cnt >>> 1,
        curr_ptr_unary := p,
        valid_lower_bits_unary := valid - ((cnt : Int) + 1),
        curr_fixed_offset := st.curr_fixed_offset + fixed_len }

/-- RiceBitVector::readReset: reposition the fixed cursor to bit_pos and
reload the unary window from absolute bit bit_pos + unary_offset. -/
def readReset (v : RiceBitVector) (bit_pos unary_offset : Nat) : Option RState :=
  let unary_pos := bit_pos + unary_offset
  match v.data.get? (unary_pos / 64) with
  | none => none
  | some w =>
    some ⟨v.data, bit_pos, w >>> (unary_pos % 64), unary_pos / 64 + 1,
      ((64 - unary_pos % 64 : Nat) : Int)⟩

/-! Claim-level harness: encode a list of (value, log2golomb) items exactly
the way the spec describes (all appendFixed calls in order, then one
appendUnaryAll with the quotients, which are passed through the uint32_t
argument type), and decode with repeated readNext. -/

/-- The build phase for a list of (value, log2golomb) items.  The quotients
are reduced mod 2 ^ 32 because appendUnaryAll takes std::vector of
uint32_t. -/
def buildStream (items : List (Nat × Nat)) : Builder :=
  appendUnaryAll (items.foldl (fun st p => appendFixed st p.1 p.2) builder0)
    (items.map (fun p => p.1 >>> p.2 % 2 ^ 32))

/-- Repeated readNext with the given log2golomb parameters, collecting the
decoded values and the final cursor state. -/
def decodeList : RState → List Nat → Option (List Nat × RState)
  | st, [] => some ([], st)
  | st, l :: ls =>
    match readNext st l with
    | none => none
    | some (v, st1) =>
      match decodeList st1 ls with
      | none => none
      | some (vs, st2) => some (v :: vs, st2)

/-- The full round trip of claim C1: build, seal, reset to the stream start
and decode every item in order. -/
def encodeDecode (items : List (Nat × Nat)) : Option (List Nat) :=
  match readReset (buildStream items).build 0 ((items.map Prod.snd).sum) with
  | none => none
  | some st =>
    match decodeList st (items.map Prod.snd) with
    | none => none
    | some (vs, _) => some vs

/-! Specification-level bit model. -/

/-- Bit k of the logical bit stream stored in the word buffer (little-endian
bit order inside each 64-bit word); bits beyond the buffer read as zero. -/
def bitOf (d : List Nat) (k : Nat) : Bool := (d.getD (k / 64) 0).testBit (k % 64)

/-- The fixed-bits region described by the spec: for each item, the low
log2golomb bits of its value, in item order. -/
def fixedBits (items : List (Nat × Nat)) : List Bool :=
  (items.map (fun p => (List.range p.2).map fun j => p.1.testBit j)).flatten

/-- The unary region described by the spec: for each quotient q, q zero bits
followed by a terminating one bit. -/
def unaryBits (qs : List Nat) : List Bool :=
  (qs.map (fun q => List.replicate q false ++ [true])).flatten

/-- The canonical reader cursor right after consuming a unary terminator at
absolute bit T, with the fixed cursor at fo. -/
def canonicalState (d : List Nat) (fo T : Nat) : RState :=
  ⟨d, fo, d.getD (T / 64) 0 >>> (T % 64) >>> 1, T / 64 + 1, ((63 - T % 64 : Nat) : Int)⟩

/-- The values readNext produces for a list of (quotient, log2golomb) pairs
decoded in order starting at fixed offset fo: quotient shifted into place
(with the uint64_t truncation of readNext) or-ed with whatever the fixed
read extracts at the running offset. -/
def expectedVals (d : List Nat) : Nat → List (Nat × Nat) → List Nat
  | _, [] => []
  | fo, (q, l) :: ps =>
    (((q % 2 ^ 64) <<< l) % 2 ^ 64 ||| fixedRead d fo l) :: expectedVals d (fo + l) ps

/-- Builder states reachable through the public Builder interface, with the
C-validity bound log2golomb at most 63 (1 << 64 would overflow) and
quotients in uint32_t range. -/
inductive ReachableB : Builder → Prop
  | alloc (n : Nat) : ReachableB ⟨List.replicate n 0, 0⟩
  | fixed {st : Builder} (v l : Nat) (h : ReachableB st) (hl : l ≤ 63) :
      ReachableB (appendFixed st v l)
  | unary {st : Builder} (us : List Nat) (h : ReachableB st)
      (hu : ∀ u ∈ us, u < 2 ^ 32) : ReachableB (appendUnaryAll st us)

/-! Fenwick-tree operation contract. -/

/-- Prefix sum of the first l elements of the logical Fenwick sequence
(indices 1 .. size in the contract wording). -/
def prefSum (xs : List Nat) (l : Nat) : Nat := (xs.take l).sum

/-- Modelled from the spec: FenwickTree::find is a pure virtual contract in
src/sux/dynamic/fenwick/Tree.hpp with no implementation under src/.  Per
the spec it returns the greatest length whose prefix sum is at most the
bound, together with the excess bound - prefix(length).  Elements are
nonnegative, so a greedy scan computes exactly that. -/
def fenwickFind : List Nat → Nat → Nat × Nat
  | [], b => (0, b)
  | x :: rest, b =>
    if x ≤ b then
      let r := fenwickFind rest (b - x)
      (r.1 + 1, r.2)
    else (0, b)

/-! Counting of set bits, and characterisations of the fuel-based word
primitives rho, nu and select64. -/

/-- Number of indices i < n with f i = true. -/
def countTrue (f : Nat → Bool) : Nat → Nat
  | 0 => 0
  | n + 1 => countTrue f n + (if f n then 1 else 0)

theorem countTrue_succ_top (f : Nat → Bool) (n : Nat) :
    countTrue f (n + 1) = countTrue f n + (if f n then 1 else 0) := rfl

theorem countTrue_congr {f g : Nat → Bool} :
    ∀ n, (∀ i, i < n → f i = g i) → countTrue f n = countTrue g n := by
  intro n h
  induction n with
  | zero => rfl
  | succ n ih =>
    simp only [countTrue, h n (by omega)]
    rw [ih (fun i hi => h i (by omega))]

theorem countTrue_split (f : Nat → Bool) (a b : Nat) :
    countTrue f (a + b) = countTrue f a + countTrue (fun i => f (a + i)) b := by
  induction b with
  | zero => rfl
  | succ b ih =>
    have h1 : countTrue f (a + (b + 1)) =
        countTrue f (a + b) + (if f (a + b) then 1 else 0) := rfl
    have h2 : countTrue (fun i => f (a + i)) (b + 1) =
        countTrue (fun i => f (a + i)) b + (if f (a + b) then 1 else 0) := rfl
    rw [h1, h2, ih]
    omega

theorem countTrue_shift (f : Nat → Bool) (n : Nat) :
    countTrue f (n + 1) = (if f 0 then 1 else 0) + countTrue (fun i => f (i + 1)) n := by
  induction n with
  | zero => simp [countTrue]
  | succ n ih =>
    show countTrue f (n + 1) + (if f (n + 1) then 1 else 0) = _
    rw [ih]
    simp only [countTrue]
    omega

theorem countTrue_exists {f : Nat → Bool} {n k : Nat} (h : k < countTrue f n) :
    ∃ s, s < n ∧ countTrue f s = k ∧ f s = true := by
  induction n with
  | zero => simp [countTrue] at h
  | succ n ih =>
    simp only [countTrue] at h
    by_cases hk : k < countTrue f n
    · obtain ⟨s, h1, h2, h3⟩ := ih hk
      exact ⟨s, by omega, h2, h3⟩
    · have hfn : f n = true := by
        by_contra hf
        simp [Bool.not_eq_true] at hf
        simp [hf] at h
        omega
      refine ⟨n, by omega, ?_, hfn⟩
      simp [hfn] at h
      omega

theorem nuAux_eq (fuel w : Nat) (h : w < 2 ^ fuel) :
    nuAux fuel w = countTrue w.testBit fuel := by
  induction fuel generalizing w with
  | zero =>
    have hw : w = 0 := by simpa using h
    subst hw
    rfl
  | succ fuel ih =>
    have hdiv : w / 2 < 2 ^ fuel := by
      rw [Nat.pow_succ] at h
      omega
    have h0 : (if w.testBit 0 then 1 else 0) = w % 2 := by
      rcases Nat.mod_two_eq_zero_or_one w with h2 | h2 <;> simp [Nat.testBit_zero, h2]
    have hc : countTrue (fun i => w.testBit (i + 1)) fuel = countTrue (w / 2).testBit fuel :=
      countTrue_congr fuel (fun i _ => (Nat.testBit_div_two w i).symm)
    rw [countTrue_shift, hc, ← ih (w / 2) hdiv]
    simp only [nuAux]
    omega

theorem nu_eq (w : Nat) (h : w < 2 ^ 64) : nu w = countTrue w.testBit 64 :=
  nuAux_eq 64 w h

theorem rhoAux_eq {q : Nat} : ∀ {fuel w : Nat}, q < fuel →
    (∀ i, i < q → w.testBit i = false) → w.testBit q = true → rhoAux fuel w = q := by
  induction q with
  | zero =>
    intro fuel w hf _ hq
    obtain ⟨fuel, rfl⟩ := Nat.exists_eq_succ_of_ne_zero (by omega : fuel ≠ 0)
    have h1 : w % 2 = 1 := by simpa [Nat.testBit_zero] using hq
    simp [rhoAux, h1]
  | succ q ih =>
    intro fuel w hf hlow hq
    obtain ⟨fuel, rfl⟩ := Nat.exists_eq_succ_of_ne_zero (by omega : fuel ≠ 0)
    have h0 : w % 2 = 0 := by
      have hb := hlow 0 (Nat.succ_pos q)
      rcases Nat.mod_two_eq_zero_or_one w with h2 | h2
      · exact h2
      · simp [Nat.testBit_zero, h2] at hb
    have hrec : rhoAux fuel (w / 2) = q := by
      refine ih (by omega) (fun i hi => ?_) ?_
      · rw [Nat.testBit_div_two]
        exact hlow (i + 1) (by omega)
      · rw [Nat.testBit_div_two]
        exact hq
    simp [rhoAux, h0, hrec]

theorem rho_eq {q w : Nat} (hq : q < 64) (hlow : ∀ i, i < q → w.testBit i = false)
    (htop : w.testBit q = true) : rho w = q :=
  rhoAux_eq hq hlow htop

theorem selAux_eq : ∀ {s fuel w k : Nat}, s < fuel →
    countTrue w.testBit s = k → w.testBit s = true → selAux fuel w k = s := by
  intro s
  induction s with
  | zero =>
    intro fuel w k hf hc hs
    obtain ⟨fuel, rfl⟩ := Nat.exists_eq_succ_of_ne_zero (by omega : fuel ≠ 0)
    have h1 : w % 2 = 1 := by simpa [Nat.testBit_zero] using hs
    have hk : k = 0 := by simpa [countTrue] using hc.symm
    subst hk
    simp [selAux, h1]
  | succ s ih =>
    intro fuel w k hf hc hs
    obtain ⟨fuel, rfl⟩ := Nat.exists_eq_succ_of_ne_zero (by omega : fuel ≠ 0)
    have hs2 : (w / 2).testBit s = true := by
      rw [Nat.testBit_div_two]
      exact hs
    have hcnt : countTrue (fun i => w.testBit (i + 1)) s = countTrue (w / 2).testBit s :=
      countTrue_congr s (fun i _ => by rw [Nat.testBit_div_two])
    rw [countTrue_shift, hcnt] at hc
    rcases Nat.mod_two_eq_zero_or_one w with h2 | h2
    · have hval : (if w.testBit 0 then 1 else 0) = 0 := by simp [Nat.testBit_zero, h2]
      rw [hval] at hc
      have hrec := @ih fuel (w / 2) k (by omega) (by omega) hs2
      simp [selAux, h2, hrec]
    · have hval : (if w.testBit 0 then 1 else 0) = 1 := by simp [Nat.testBit_zero, h2]
      rw [hval] at hc
      have hk : k ≠ 0 := by omega
      have hrec := @ih fuel (w / 2) (k - 1) (by omega) (by omega) hs2
      simp [selAux, h2, hk, hrec]

theorem select64_eq {s w k : Nat} (hs : s < 64) (hc : countTrue w.testBit s = k)
    (ht : w.testBit s = true) : select64 w k = s :=
  selAux_eq hs hc ht

/-! Buffer access lemmas: getD over set, append, replicate and resize. -/

theorem getD_len_le {α : Type} {L : List α} {k : Nat} (dflt : α) (h : L.length ≤ k) :
    L.getD k dflt = dflt := by
  rw [List.getD_eq_getElem?_getD, List.getElem?_eq_none h]
  rfl

theorem getD_append {α : Type} (L1 L2 : List α) (dflt : α) (k : Nat) :
    (L1 ++ L2).getD k dflt =
      if k < L1.length then L1.getD k dflt else L2.getD (k - L1.length) dflt := by
  by_cases h : k < L1.length
  · rw [List.getD_eq_getElem?_getD, List.getElem?_append_left h, if_pos h,
      List.getD_eq_getElem?_getD]
  · rw [List.getD_eq_getElem?_getD, List.getElem?_append_right (by omega), if_neg h,
      List.getD_eq_getElem?_getD]

theorem getD_replicate {α : Type} (n k : Nat) (a : α) :
    (List.replicate n a).getD k a = a := by
  by_cases h : k < n
  · rw [List.getD_eq_getElem?_getD, List.getElem?_replicate_of_lt h]
    rfl
  · exact getD_len_le a (by simpa using by omega)

theorem getD_set_self {α : Type} {d : List α} {i : Nat} {w : α} (dflt : α)
    (h : i < d.length) : (d.set i w).getD i dflt = w := by
  rw [List.getD_eq_getElem?_getD, List.getElem?_set_self' ]
  simp [List.getElem?_eq_getElem h]

theorem getD_set_ne {α : Type} {d : List α} {i j : Nat} {w : α} (dflt : α)
    (h : j ≠ i) : (d.set i w).getD j dflt = d.getD j dflt := by
  rw [List.getD_eq_getElem?_getD, List.getElem?_set_ne (by omega), ← List.getD_eq_getElem?_getD]

theorem length_resize (n : Nat) (d : List Nat) : (resize n d).length = n := by
  simp [resize]
  omega

theorem getD_resize (n : Nat) (d : List Nat) (i : Nat) :
    (resize n d).getD i 0 = if i < n then d.getD i 0 else 0 := by
  by_cases h : i < n
  · rw [if_pos h]
    by_cases h2 : i < d.length
    · rw [resize, List.getD_eq_getElem?_getD, List.getElem?_take_of_lt h,
        List.getElem?_append_left h2, ← List.getD_eq_getElem?_getD]
    · rw [resize, List.getD_eq_getElem?_getD, List.getElem?_take_of_lt h,
        List.getElem?_append_right (by omega), getD_len_le 0 (by omega)]
      by_cases h3 : i - d.length < n - d.length
      · rw [List.getElem?_replicate_of_lt h3]
        rfl
      · rw [List.getElem?_eq_none (by simpa using by omega)]
        rfl
  · rw [if_neg h, getD_len_le 0 (by rw [length_resize]; omega)]

/-- All words of the buffer are in uint64_t range. -/
def WordsOK (d : List Nat) : Prop := ∀ w ∈ d, w < 2 ^ 64

theorem wordsOK_getD {d : List Nat} (h : WordsOK d) (i : Nat) : d.getD i 0 < 2 ^ 64 := by
  by_cases hi : i < d.length
  · rw [List.getD_eq_getElem?_getD, List.getElem?_eq_getElem hi]
    exact h _ (List.getElem_mem hi)
  · rw [getD_len_le 0 (by omega)]
    exact Nat.pos_pow_of_pos 64 (by omega)

theorem wordsOK_set {d : List Nat} {w : Nat} (h : WordsOK d) (i : Nat) (hw : w < 2 ^ 64) :
    WordsOK (d.set i w) := by
  intro x hx
  rcases List.mem_or_eq_of_mem_set hx with h2 | h2
  · exact h x h2
  · omega

theorem wordsOK_resize {d : List Nat} (h : WordsOK d) (n : Nat) : WordsOK (resize n d) := by
  intro x hx
  have := List.mem_of_mem_take hx
  rcases List.mem_append.mp this with h2 | h2
  · exact h x h2
  · have := List.eq_of_mem_replicate h2
    omega

theorem wordsOK_replicate (n : Nat) : WordsOK (List.replicate n 0) := by
  intro x hx
  have := List.eq_of_mem_replicate hx
  omega

/-! Lemmas about the logical bit stream. -/

theorem bitOf_beyond {d : List Nat} {k : Nat} (h : 64 * d.length ≤ k) : bitOf d k = false := by
  rw [bitOf, getD_len_le 0 (by omega)]
  exact Nat.zero_testBit _

theorem bitOf_resize (n : Nat) (d : List Nat) (k : Nat) :
    bitOf (resize n d) k = if k < 64 * n then bitOf d k else false := by
  rw [bitOf, getD_resize]
  by_cases h : k / 64 < n
  · rw [if_pos h, if_pos (by omega)]
    rfl
  · rw [if_neg h, if_neg (by omega)]
    exact Nat.zero_testBit _

theorem bitOf_set {d : List Nat} {i : Nat} (w k : Nat) (h : i < d.length) :
    bitOf (d.set i w) k = if k / 64 = i then w.testBit (k % 64) else bitOf d k := by
  by_cases h2 : k / 64 = i
  · rw [bitOf, h2, getD_set_self 0 h, if_pos rfl]
  · rw [bitOf, getD_set_ne 0 h2, if_neg h2]
    rfl

theorem testBit_getD_bitOf (d : List Nat) (i t : Nat) (ht : t < 64) :
    (d.getD i 0).testBit t = bitOf d (64 * i + t) := by
  have h1 : (64 * i + t) / 64 = i := by omega
  have h2 : (64 * i + t) % 64 = t := by omega
  rw [bitOf, h1, h2]

theorem getD_range_map (f : Nat → Bool) (l j : Nat) :
    ((List.range l).map f).getD j false = if j < l then f j else false := by
  by_cases h : j < l
  · simp [List.getD_eq_getElem?_getD, List.getElem?_range, h]
  · rw [getD_len_le false (by simpa using by omega), if_neg h]

/-! Builder correctness: the logical content invariant and its preservation
by appendFixed and appendUnaryAll. -/

/-- The builder state represents the logical bit list L: the bit cursor is
its length, all words are in uint64_t range, and every stream bit agrees
with L (bits at or past the cursor read as zero). -/
def Content (st : Builder) (L : List Bool) : Prop :=
  st.bit_count = L.length ∧ WordsOK st.data ∧ ∀ k, bitOf st.data k = L.getD k false

theorem content_resize {d : List Nat} {L : List Bool} (hw : WordsOK d)
    (hbits : ∀ k, bitOf d k = L.getD k false) {n : Nat} (hn : L.length ≤ 64 * n) :
    WordsOK (resize n d) ∧ ∀ k, bitOf (resize n d) k = L.getD k false := by
  refine ⟨wordsOK_resize hw n, fun k => ?_⟩
  rw [bitOf_resize]
  by_cases h : k < 64 * n
  · rw [if_pos h]
    exact hbits k
  · rw [if_neg h]
    exact (getD_len_le false (by omega)).symm

theorem content_appendFixed {st : Builder} {L : List Bool} (hc : Content st L)
    (v : Nat) {l : Nat} (hl : l ≤ 63) :
    Content (appendFixed st v l) (L ++ (List.range l).map v.testBit) := by
  obtain ⟨hbc, hw, hbits⟩ := hc
  set bc := st.bit_count with hbcdef
  set n := ((bc + l + 7) / 8 + 7 + 7) / 8 with hn
  have h64 : bc + l + 56 ≤ 64 * n := by omega
  set d2 := resize n st.data with hd2
  obtain ⟨hw2, hbits2⟩ := content_resize hw hbits (n := n) (by omega)
  have hlen2 : d2.length = n := length_resize n st.data
  set used := bc % 64 with hused
  set idx := bc / 64 with hidx
  set lower := v % 2 ^ l with hlower
  have hlow_lt : lower < 2 ^ l := Nat.mod_lt _ (Nat.pos_pow_of_pos l (by omega))
  set cw := d2.getD idx 0 with hcw
  set cur := cw ||| (lower <<< used) % 2 ^ 64 with hcur
  have hcw_lt : cw < 2 ^ 64 := wordsOK_getD hw2 idx
  have hcur_lt : cur < 2 ^ 64 :=
    Nat.or_lt_two_pow hcw_lt (Nat.mod_lt _ (by positivity))
  have hidx_lt : idx < n := by omega
  -- bits of the updated word
  have hcurbit : ∀ t, t < 64 →
      cur.testBit t = if t < used then L.getD (64 * idx + t) false
        else (decide (t - used < l) && v.testBit (t - used)) := by
    intro t ht
    have hcwt : cw.testBit t = L.getD (64 * idx + t) false := by
      rw [hcw, testBit_getD_bitOf d2 idx t ht, hbits2]
    have hsh : ((lower <<< used) % 2 ^ 64).testBit t =
        (decide (used ≤ t) && (decide (t - used < l) && v.testBit (t - used))) := by
      rw [Nat.testBit_mod_two_pow, Nat.testBit_shiftLeft]
      have : lower.testBit (t - used) = (decide (t - used < l) && v.testBit (t - used)) := by
        rw [hlower, Nat.testBit_mod_two_pow]
      rw [this]
      simp [ht]
    rw [hcur, Nat.testBit_or, hcwt, hsh]
    by_cases hcase : t < used
    · have h2 : ¬ used ≤ t := by omega
      have hdg : decide (used ≤ t) = false := by simp [h2]
      rw [if_pos hcase, hdg, Bool.false_and, Bool.or_false]
    · have hge : used ≤ t := by omega
      have hLz : L.getD (64 * idx + t) false = false :=
        getD_len_le false (by omega)
      have hdg : decide (used ≤ t) = true := by simp [hge]
      rw [if_neg hcase, hLz, hdg, Bool.false_or, Bool.true_and]
  -- the target bit list
  have hRHS : ∀ k, (L ++ (List.range l).map v.testBit).getD k false =
      if k < bc then L.getD k false
      else (decide (k - bc < l) && v.testBit (k - bc)) := by
    intro k
    rw [getD_append, getD_range_map, ← hbc]
    by_cases h : k < bc
    · rw [if_pos h, if_pos h]
    · rw [if_neg h, if_neg h]
      by_cases h2 : k - bc < l
      · simp [h2]
      · simp [h2]
  have hLlen : (L ++ (List.range l).map v.testBit).length = bc + l := by
    simp [← hbc]
  rw [appendFixed]
  simp only [← hbcdef, ← hn, ← hd2, ← hused, ← hidx, ← hlower, ← hcw, ← hcur]
  by_cases hsplit : used + l > 64
  · rw [if_pos hsplit]
    have hidx1_lt : idx + 1 < n := by omega
    refine ⟨by simpa using hLlen.symm, ?_, ?_⟩
    · exact wordsOK_set (wordsOK_set hw2 idx hcur_lt) (idx + 1)
        (by
          calc lower >>> (64 - used) ≤ lower := by
                rw [Nat.shiftRight_eq_div_pow]
                exact Nat.div_le_self _ _
            _ < 2 ^ 64 := by
                have : (2 : Nat) ^ l ≤ 2 ^ 64 := Nat.pow_le_pow_right (by omega) (by omega)
                omega)
    · intro k
      have hlen_set : (d2.set idx cur).length = n := by simp [hlen2]
      rw [bitOf_set _ k (by omega), hRHS k]
      by_cases hk1 : k / 64 = idx + 1
      · rw [if_pos hk1]
        have hkge : ¬ k < bc := by omega
        rw [if_neg hkge]
        have harg : 64 - used + k % 64 = k - bc := by omega
        rw [Nat.testBit_shiftRight, harg, hlower, Nat.testBit_mod_two_pow]
      · rw [if_neg hk1, bitOf_set _ k (by omega)]
        by_cases hk0 : k / 64 = idx
        · rw [if_pos hk0, hcurbit (k % 64) (by omega)]
          by_cases hcase : k < bc
          · have : k % 64 < used := by omega
            rw [if_pos this, if_pos hcase]
            congr 1
            omega
          · have h1 : ¬ k % 64 < used := by omega
            rw [if_neg h1, if_neg hcase]
            have : k % 64 - used = k - bc := by omega
            rw [this]
        · rw [if_neg hk0, hbits2 k]
          by_cases hcase : k < bc
          · rw [if_pos hcase]
          · rw [if_neg hcase]
            have hbig : bc + l ≤ k := by omega
            have h1 : L.getD k false = false := getD_len_le false (by omega)
            have h2 : decide (k - bc < l) = false := by simp; omega
            rw [h1, h2, Bool.false_and]
  · rw [if_neg hsplit]
    refine ⟨by simpa using hLlen.symm, wordsOK_set hw2 idx hcur_lt, ?_⟩
    intro k
    rw [bitOf_set _ k (by omega), hRHS k]
    by_cases hk0 : k / 64 = idx
    · rw [if_pos hk0, hcurbit (k % 64) (by omega)]
      by_cases hcase : k < bc
      · have : k % 64 < used := by omega
        rw [if_pos this, if_pos hcase]
        congr 1
        omega
      · have h1 : ¬ k % 64 < used := by omega
        rw [if_neg h1, if_neg hcase]
        have : k % 64 - used = k - bc := by omega
        rw [this]
    · rw [if_neg hk0, hbits2 k]
      by_cases hcase : k < bc
      · rw [if_pos hcase]
      · rw [if_neg hcase]
        have hbig : bc + l ≤ k := by omega
        have h1 : L.getD k false = false := getD_len_le false (by omega)
        have h2 : decide (k - bc < l) = false := by simp; omega
        rw [h1, h2, Bool.false_and]

theorem getD_replicate_any {α : Type} (n k : Nat) (a dflt : α) :
    (List.replicate n a).getD k dflt = if k < n then a else dflt := by
  by_cases h : k < n
  · rw [List.getD_eq_getElem?_getD, List.getElem?_replicate_of_lt h, if_pos h]
    rfl
  · rw [getD_len_le dflt (by simpa using by omega), if_neg h]

theorem content_unaryStep {d : List Nat} {bc : Nat} {L : List Bool}
    (hc : Content ⟨d, bc⟩ L) {u : Nat} (hlen : bc + u + 1 ≤ 64 * d.length) :
    Content (unaryStep ⟨d, bc⟩ u) (L ++ (List.replicate u false ++ [true])) ∧
      (unaryStep ⟨d, bc⟩ u).data.length = d.length := by
  obtain ⟨hbc, hw, hbits⟩ := hc
  simp only at hbc hw hbits
  set wi := (bc + u) / 64 with hwi
  have hwi_lt : wi < d.length := by omega
  set s := (bc + u) % 64 with hs
  set word2 := d.getD wi 0 ||| 1 <<< s with hword2
  have hword2_lt : word2 < 2 ^ 64 := by
    refine Nat.or_lt_two_pow (wordsOK_getD hw wi) ?_
    have : (1 : Nat) <<< s = 2 ^ s := Nat.one_shiftLeft s
    have h2 : (2 : Nat) ^ s < 2 ^ 64 := Nat.pow_lt_pow_right (by omega) (by omega)
    omega
  have hRHS : ∀ k, (L ++ (List.replicate u false ++ [true])).getD k false =
      if k < bc then L.getD k false else decide (k = bc + u) := by
    intro k
    rw [getD_append, ← hbc]
    by_cases h : k < bc
    · rw [if_pos h, if_pos h]
    · rw [if_neg h, if_neg h, getD_append, getD_replicate_any, List.length_replicate]
      by_cases h2 : k - bc < u
      · rw [if_pos h2]
        have : ¬ k = bc + u := by omega
        simp [this]
      · rw [if_neg h2]
        by_cases h3 : k - bc - u = 0
        · have hk : k = bc + u := by omega
          simp [h3, hk, List.getD]
        · have hk : ¬ k = bc + u := by omega
          have h4 : ([true] : List Bool).getD (k - bc - u) false = false :=
            getD_len_le false (by simp; omega)
          rw [h4]
          simp [hk]
  refine ⟨⟨?_, wordsOK_set hw wi hword2_lt, ?_⟩, by simp [unaryStep]⟩
  · simp [unaryStep, ← hbc]
    omega
  · intro k
    show bitOf (d.set wi word2) k = _
    rw [bitOf_set _ k hwi_lt, hRHS k]
    have hone : ∀ t, (1 : Nat).testBit t = decide (t = 0) := by
      intro t
      cases t with
      | zero => simp
      | succ t => simp [Nat.testBit_add_one]
    by_cases hk : k / 64 = wi
    · have hb : (d.getD wi 0).testBit (k % 64) = L.getD k false := by
        rw [← hk]
        exact hbits k
      rw [if_pos hk, hword2, Nat.testBit_or, Nat.testBit_shiftLeft, hone, hb]
      by_cases hcase : k < bc
      · have h1 : ¬ s ≤ k % 64 ∨ ¬ (k % 64 - s = 0) := by omega
        have : (decide (k % 64 ≥ s) && decide (k % 64 - s = 0)) = false := by
          rcases h1 with h | h <;> simp [h]
        rw [this, Bool.or_false, if_pos hcase]
      · rw [if_neg hcase]
        have hLz : L.getD k false = false := getD_len_le false (by omega)
        rw [hLz, Bool.false_or]
        by_cases he : k = bc + u
        · have h1 : s ≤ k % 64 := by omega
          have h2 : k % 64 - s = 0 := by omega
          simp [h1, h2, he]
        · have h1 : ¬ (s ≤ k % 64 ∧ k % 64 - s = 0) := by omega
          have : (decide (k % 64 ≥ s) && decide (k % 64 - s = 0)) = false := by
            by_cases h2 : s ≤ k % 64
            · have h3 : ¬ k % 64 - s = 0 := by tauto
              simp [h3]
            · simp [h2]
          simp [this, he]
    · rw [if_neg hk, hbits k]
      by_cases hcase : k < bc
      · rw [if_pos hcase]
      · rw [if_neg hcase]
        have hLz : L.getD k false = false := getD_len_le false (by omega)
        have hne : ¬ k = bc + u := by omega
        rw [hLz]
        simp [hne]

theorem unaryBits_length (us : List Nat) :
    (unaryBits us).length = (us.map (· + 1)).sum := by
  induction us with
  | nil => rfl
  | cons u us ih => simp [unaryBits] at ih ⊢; omega

theorem unaryBits_cons (u : Nat) (us : List Nat) :
    unaryBits (u :: us) = (List.replicate u false ++ [true]) ++ unaryBits us := by
  simp [unaryBits]

theorem fixedBits_cons (p : Nat × Nat) (items : List (Nat × Nat)) :
    fixedBits (p :: items) = (List.range p.2).map p.1.testBit ++ fixedBits items := by
  simp [fixedBits]

theorem fixedBits_length (items : List (Nat × Nat)) :
    (fixedBits items).length = (items.map Prod.snd).sum := by
  induction items with
  | nil => rfl
  | cons p items ih => simp [fixedBits] at ih ⊢; omega

theorem content_unaryFold : ∀ (us : List Nat) (d : List Nat) (bc : Nat) (L : List Bool),
    Content ⟨d, bc⟩ L → bc + (us.map (· + 1)).sum ≤ 64 * d.length →
    Content (us.foldl unaryStep ⟨d, bc⟩) (L ++ unaryBits us) ∧
      (us.foldl unaryStep ⟨d, bc⟩).data.length = d.length := by
  intro us
  induction us with
  | nil =>
    intro d bc L hc _
    simpa [unaryBits] using hc
  | cons u us ih =>
    intro d bc L hc hlen
    simp only [List.map_cons, List.sum_cons] at hlen
    have hstep := content_unaryStep hc (u := u) (by omega)
    obtain ⟨hc2, hlen2⟩ := hstep
    have hrec := ih (unaryStep ⟨d, bc⟩ u).data (unaryStep ⟨d, bc⟩ u).bit_count
      (L ++ (List.replicate u false ++ [true])) hc2
      (by
        have : (unaryStep ⟨d, bc⟩ u).bit_count = bc + u + 1 := by simp [unaryStep]
        rw [this, hlen2]
        omega)
    rw [unaryBits_cons, ← List.append_assoc]
    simp only [List.foldl_cons]
    rw [hlen2] at hrec
    exact hrec

theorem content_appendUnaryAll {st : Builder} {L : List Bool} (hc : Content st L)
    (us : List Nat) :
    Content (appendUnaryAll st us) (L ++ unaryBits us) ∧
      (appendUnaryAll st us).data.length =
        ((st.bit_count + (us.map (· + 1)).sum + 7) / 8 + 7 + 7) / 8 := by
  obtain ⟨hbc, hw, hbits⟩ := hc
  set binc := (us.map (· + 1)).sum with hbinc
  set n := ((st.bit_count + binc + 7) / 8 + 7 + 7) / 8 with hn
  have h64 : st.bit_count + binc + 56 ≤ 64 * n := by omega
  obtain ⟨hw2, hbits2⟩ := content_resize hw hbits (n := n) (by omega)
  have hfold := content_unaryFold us (resize n st.data) st.bit_count L
    ⟨by simpa using hbc, hw2, hbits2⟩ (by rw [length_resize]; omega)
  have hlen := length_resize n st.data
  constructor
  · show Content (us.foldl unaryStep ⟨resize n st.data, st.bit_count⟩) (L ++ unaryBits us)
    exact hfold.1
  · show (us.foldl unaryStep ⟨resize n st.data, st.bit_count⟩).data.length = n
    rw [hfold.2, hlen]

theorem content_builder0 : Content builder0 [] := by
  refine ⟨rfl, wordsOK_replicate 16, fun k => ?_⟩
  show ((List.replicate 16 0).getD (k / 64) 0).testBit (k % 64) = ([] : List Bool).getD k false
  rw [getD_replicate]
  simp [Nat.zero_testBit]

theorem content_fixedFold : ∀ (items : List (Nat × Nat)) (st : Builder) (L : List Bool),
    Content st L → (∀ p ∈ items, p.2 ≤ 63) →
    Content (items.foldl (fun st p => appendFixed st p.1 p.2) st) (L ++ fixedBits items) := by
  intro items
  induction items with
  | nil =>
    intro st L hc _
    simpa [fixedBits] using hc
  | cons p items ih =>
    intro st L hc hl
    have hstep := content_appendFixed hc p.1 (hl p (by simp))
    have hrec := ih (appendFixed st p.1 p.2) (L ++ (List.range p.2).map p.1.testBit) hstep
      (fun q hq => hl q (by simp [hq]))
    rw [fixedBits_cons, ← List.append_assoc]
    simpa using hrec

theorem content_buildStream (items : List (Nat × Nat)) (hl : ∀ p ∈ items, p.2 ≤ 63) :
    Content (buildStream items)
      (fixedBits items ++ unaryBits (items.map fun p => p.1 >>> p.2 % 2 ^ 32)) ∧
      (buildStream items).data.length =
        (((fixedBits items).length +
            (unaryBits (items.map fun p => p.1 >>> p.2 % 2 ^ 32)).length + 7) / 8 + 7 + 7) / 8 := by
  have hfix := content_fixedFold items builder0 [] content_builder0 hl
  simp only [List.nil_append] at hfix
  have hmid_bc : (items.foldl (fun st p => appendFixed st p.1 p.2) builder0).bit_count =
      (fixedBits items).length := hfix.1
  have happ := content_appendUnaryAll hfix (items.map fun p => p.1 >>> p.2 % 2 ^ 32)
  refine ⟨happ.1, ?_⟩
  rw [show buildStream items = appendUnaryAll
      (items.foldl (fun st p => appendFixed st p.1 p.2) builder0)
      (items.map fun p => p.1 >>> p.2 % 2 ^ 32) from rfl]
  rw [happ.2, hmid_bc, unaryBits_length]

/-! The unaligned little-endian 8-byte read of readNext. -/

theorem byteAt_lt (d : List Nat) (j : Nat) : byteAt d j < 2 ^ 8 :=
  Nat.mod_lt _ (by omega)

theorem byteAt_testBit (d : List Nat) (j t : Nat) :
    (byteAt d j).testBit t = (decide (t < 8) && bitOf d (8 * j + t)) := by
  rw [byteAt, show (256 : Nat) = 2 ^ 8 from rfl, Nat.testBit_mod_two_pow,
    Nat.testBit_shiftRight]
  by_cases h : t < 8
  · have h2 : (8 * j + t) / 64 = j / 8 := by omega
    have h1 : (8 * j + t) % 64 = 8 * (j % 8) + t := by omega
    rw [bitOf, h2, h1]
  · simp [h]

theorem shiftLeft_lt {x a : Nat} (h : x < 2 ^ a) (s : Nat) : x <<< s < 2 ^ (a + s) := by
  rw [Nat.shiftLeft_eq, Nat.pow_add]
  exact Nat.mul_lt_mul_of_lt_of_le h (Nat.le_refl _) (Nat.two_pow_pos s)

theorem testBit_or_shift {x y : Nat} (s i : Nat) (hx : x < 2 ^ s) :
    (x ||| y <<< s).testBit i = if i < s then x.testBit i else y.testBit (i - s) := by
  rw [Nat.testBit_or, Nat.testBit_shiftLeft]
  by_cases h : i < s
  · have h2 : ¬ (i ≥ s) := by omega
    simp [h2, h]
  · have h2 : x.testBit i = false := Nat.testBit_lt_two_pow (by
      calc x < 2 ^ s := hx
        _ ≤ 2 ^ i := Nat.pow_le_pow_right (by omega) (by omega))
    have h3 : i ≥ s := by omega
    simp [h2, h, h3]

theorem read64le_testBit (d : List Nat) (b i : Nat) (hi : i < 64) :
    (read64le d b).testBit i = bitOf d (8 * b + i) := by
  have hb0 := byteAt_lt d b
  have h1 : byteAt d b ||| byteAt d (b + 1) <<< 8 < 2 ^ 16 :=
    Nat.or_lt_two_pow (by omega) (shiftLeft_lt (byteAt_lt d (b + 1)) 8)
  have h2 : byteAt d b ||| byteAt d (b + 1) <<< 8 ||| byteAt d (b + 2) <<< 16 < 2 ^ 24 :=
    Nat.or_lt_two_pow (by omega) (shiftLeft_lt (byteAt_lt d (b + 2)) 16)
  have h3 : byteAt d b ||| byteAt d (b + 1) <<< 8 ||| byteAt d (b + 2) <<< 16 |||
      byteAt d (b + 3) <<< 24 < 2 ^ 32 :=
    Nat.or_lt_two_pow (by omega) (shiftLeft_lt (byteAt_lt d (b + 3)) 24)
  have h4 : byteAt d b ||| byteAt d (b + 1) <<< 8 ||| byteAt d (b + 2) <<< 16 |||
      byteAt d (b + 3) <<< 24 ||| byteAt d (b + 4) <<< 32 < 2 ^ 40 :=
    Nat.or_lt_two_pow (by omega) (shiftLeft_lt (byteAt_lt d (b + 4)) 32)
  have h5 : byteAt d b ||| byteAt d (b + 1) <<< 8 ||| byteAt d (b + 2) <<< 16 |||
      byteAt d (b + 3) <<< 24 ||| byteAt d (b + 4) <<< 32 ||| byteAt d (b + 5) <<< 40
      < 2 ^ 48 :=
    Nat.or_lt_two_pow (by omega) (shiftLeft_lt (byteAt_lt d (b + 5)) 40)
  have h6 : byteAt d b ||| byteAt d (b + 1) <<< 8 ||| byteAt d (b + 2) <<< 16 |||
      byteAt d (b + 3) <<< 24 ||| byteAt d (b + 4) <<< 32 ||| byteAt d (b + 5) <<< 40 |||
      byteAt d (b + 6) <<< 48 < 2 ^ 56 :=
    Nat.or_lt_two_pow (by omega) (shiftLeft_lt (byteAt_lt d (b + 6)) 48)
  have hfin : ∀ m t : Nat, t < 8 → (byteAt d (b + m)).testBit t = bitOf d (8 * b + (8 * m + t)) := by
    intro m t ht
    rw [byteAt_testBit]
    have : 8 * (b + m) + t = 8 * b + (8 * m + t) := by omega
    simp [ht, this]
  rw [read64le, testBit_or_shift 56 i h6]
  by_cases hc7 : i < 56
  · rw [if_pos hc7, testBit_or_shift 48 i h5]
    by_cases hc6 : i < 48
    · rw [if_pos hc6, testBit_or_shift 40 i h4]
      by_cases hc5 : i < 40
      · rw [if_pos hc5, testBit_or_shift 32 i h3]
        by_cases hc4 : i < 32
        · rw [if_pos hc4, testBit_or_shift 24 i h2]
          by_cases hc3 : i < 24
          · rw [if_pos hc3, testBit_or_shift 16 i h1]
            by_cases hc2 : i < 16
            · rw [if_pos hc2, testBit_or_shift 8 i hb0]
              by_cases hc1 : i < 8
              · rw [if_pos hc1]
                have := hfin 0 i hc1
                rw [byteAt_testBit]
                simp only [hc1, decide_eq_true_eq]
                have harg : 8 * b + i = 8 * b + i := rfl
                simp [hc1]
              · rw [if_neg hc1]
                have := hfin 1 (i - 8) (by omega)
                rw [this]
                congr 1
                omega
            · rw [if_neg hc2]
              have := hfin 2 (i - 16) (by omega)
              rw [this]
              congr 1
              omega
          · rw [if_neg hc3]
            have := hfin 3 (i - 24) (by omega)
            rw [this]
            congr 1
            omega
        · rw [if_neg hc4]
          have := hfin 4 (i - 32) (by omega)
          rw [this]
          congr 1
          omega
      · rw [if_neg hc5]
        have := hfin 5 (i - 40) (by omega)
        rw [this]
        congr 1
        omega
    · rw [if_neg hc6]
      have := hfin 6 (i - 48) (by omega)
      rw [this]
      congr 1
      omega
  · rw [if_neg hc7]
    have := hfin 7 (i - 56) (by omega)
    rw [this]
    congr 1
    omega

theorem fixedRead_testBit (d : List Nat) {off l : Nat} (hl : off % 8 + l ≤ 64) (i : Nat) :
    (fixedRead d off l).testBit i = (decide (i < l) && bitOf d (off + i)) := by
  rw [fixedRead, Nat.testBit_mod_two_pow, Nat.testBit_shiftRight]
  by_cases h : i < l
  · rw [read64le_testBit d (off / 8) (off % 8 + i) (by omega)]
    have harg : 8 * (off / 8) + (off % 8 + i) = off + i := by omega
    simp [h, harg]
  · simp [h]

theorem fixedRead_lt (d : List Nat) (off l : Nat) : fixedRead d off l < 2 ^ l :=
  Nat.mod_lt _ (Nat.two_pow_pos l)

theorem fixedRead_eq_mod {d : List Nat} {off l v : Nat} (hl : off % 8 + l ≤ 64)
    (hbits : ∀ j, j < l → bitOf d (off + j) = v.testBit j) :
    fixedRead d off l = v % 2 ^ l := by
  apply Nat.eq_of_testBit_eq
  intro i
  rw [fixedRead_testBit d hl i, Nat.testBit_mod_two_pow]
  by_cases h : i < l
  · simp [h, hbits i h]
  · simp [h]

/-! Reader cursor invariant. -/

/-- Cursor invariant: P is the absolute stream position of the next unread
unary bit.  The window holds the unread bits of the last loaded word
(index curr_ptr_unary - 1), shifted down so bit 0 of the window is stream
bit P; valid_lower_bits_unary counts the unread bits of that word. -/
def InvAt (st : RState) (P : Nat) : Prop :=
  1 ≤ st.curr_ptr_unary ∧ 64 * (st.curr_ptr_unary - 1) ≤ P ∧ P ≤ 64 * st.curr_ptr_unary ∧
  st.valid_lower_bits_unary = ((64 * st.curr_ptr_unary - P : Nat) : Int) ∧
  st.curr_window_unary =
    st.data.getD (st.curr_ptr_unary - 1) 0 >>> (64 - (64 * st.curr_ptr_unary - P))

theorem invAt_window_testBit {st : RState} {P : Nat} (h : InvAt st P)
    (hw : WordsOK st.data) (j : Nat) :
    st.curr_window_unary.testBit j =
      (decide (j < 64 * st.curr_ptr_unary - P) && bitOf st.data (P + j)) := by
  obtain ⟨hp1, hp2, hp3, hvalid, hwin⟩ := h
  set ptr := st.curr_ptr_unary
  set vnat := 64 * ptr - P with hvnat
  rw [hwin, Nat.testBit_shiftRight]
  by_cases hj : j < vnat
  · have h1 : (P + j) / 64 = ptr - 1 := by omega
    have h2 : (P + j) % 64 = 64 - vnat + j := by omega
    rw [bitOf, h1, h2]
    simp [hj]
  · have hbig : 64 ≤ 64 - vnat + j := by omega
    have hfalse : (st.data.getD (ptr - 1) 0).testBit (64 - vnat + j) = false :=
      Nat.testBit_lt_two_pow (by
        calc st.data.getD (ptr - 1) 0 < 2 ^ 64 := wordsOK_getD hw _
          _ ≤ 2 ^ (64 - vnat + j) := Nat.pow_le_pow_right (by omega) hbig)
    rw [hfalse]
    simp [hj]

theorem get?_eq_some_getD {d : List Nat} {i : Nat} (h : i < d.length) :
    d.get? i = some (d.getD i 0) := by
  rw [List.get?_eq_getElem?, List.getElem?_eq_getElem h, List.getD_eq_getElem?_getD,
    List.getElem?_eq_getElem h]
  rfl

theorem findNonzeroAux_eq : ∀ (z : Nat) {fuel : Nat} (d : List Nat) (p : Nat) {w : Nat},
    (∀ j, j < z → d.get? (p + j) = some 0) → d.get? (p + z) = some w → w ≠ 0 →
    z + 1 ≤ fuel → findNonzeroAux fuel d p = some (z, w, p + z + 1) := by
  intro z
  induction z with
  | zero =>
    intro fuel d p w hz hw hne hf
    obtain ⟨fuel, rfl⟩ := Nat.exists_eq_succ_of_ne_zero (by omega : fuel ≠ 0)
    rw [findNonzeroAux]
    simp only [Nat.add_zero] at hw
    rw [hw]
    simp [hne]
  | succ z ih =>
    intro fuel d p w hz hw hne hf
    obtain ⟨fuel, rfl⟩ := Nat.exists_eq_succ_of_ne_zero (by omega : fuel ≠ 0)
    rw [findNonzeroAux]
    have h0 : d.get? (p + 0) = some 0 := hz 0 (by omega)
    simp only [Nat.add_zero] at h0
    rw [h0]
    have hrec : findNonzeroAux fuel d (p + 1) = some (z, w, p + 1 + z + 1) := by
      refine ih d (p + 1) (fun j hj => ?_) ?_ hne (by omega)
      · have := hz (j + 1) (by omega)
        rw [show p + 1 + j = p + (j + 1) by omega]
        exact this
      · rw [show p + 1 + z = p + (z + 1) by omega]
        exact hw
    rw [show p + 1 + z + 1 = p + (z + 1) + 1 by omega] at hrec
    simp [hrec]

theorem uadd64_small (a n : Nat) (h : a + n < 2 ^ 64) :
    uadd64 a ((n : Nat) : Int) = a + n := by
  have h1 : ((a : Int) + (n : Int)) = ((a + n : Nat) : Int) := by push_cast; ring
  have h2 : ((a + n : Nat) : Int).emod (2 ^ 64) = ((a + n : Nat) : Int) :=
    Int.emod_eq_of_lt (by exact_mod_cast Nat.zero_le _) (by exact_mod_cast h)
  rw [uadd64, h1, h2]
  omega

theorem invAt_canonical (d : List Nat) (fo T : Nat) :
    InvAt (canonicalState d fo T) (T + 1) := by
  unfold InvAt canonicalState
  dsimp only
  refine ⟨by omega, by omega, by omega, ?_, ?_⟩
  · have he : 64 * (T / 64 + 1) - (T + 1) = 63 - T % 64 := by omega
    rw [he]
  · have h1 : T / 64 + 1 - 1 = T / 64 := by omega
    have h2 : 64 - (64 * (T / 64 + 1) - (T + 1)) = T % 64 + 1 := by omega
    rw [h1, h2, Nat.shiftRight_add]

theorem readReset_invAt {v : RiceBitVector} {bp off : Nat} {st : RState}
    (h : readReset v bp off = some st) :
    st.data = v.data ∧ st.curr_fixed_offset = bp ∧ InvAt st (bp + off) ∧
      (bp + off) / 64 < v.data.length := by
  rw [readReset] at h
  rcases hma : v.data.get? ((bp + off) / 64) with _ | w
  · rw [hma] at h
    simp at h
  · rw [hma] at h
    simp only [Option.some.injEq] at h
    have hlen : (bp + off) / 64 < v.data.length := by
      by_contra hc
      rw [List.get?_eq_getElem?, List.getElem?_eq_none (by omega)] at hma
      exact Option.noConfusion hma
    have hgd : w = v.data.getD ((bp + off) / 64) 0 := by
      have := get?_eq_some_getD hlen
      rw [hma] at this
      exact (Option.some.injEq _ _).mp this
    subst h
    refine ⟨rfl, rfl, ?_, hlen⟩
    unfold InvAt
    dsimp only
    refine ⟨by omega, by omega, by omega, ?_, ?_⟩
    · have he : 64 * ((bp + off) / 64 + 1) - (bp + off) = 64 - (bp + off) % 64 := by omega
      rw [he]
    · have h1 : (bp + off) / 64 + 1 - 1 = (bp + off) / 64 := by omega
      have h2 : 64 - (64 * ((bp + off) / 64 + 1) - (bp + off)) = (bp + off) % 64 := by omega
      rw [h1, h2, ← hgd]

/-- The single-item decode step of readNext: if the unary bits at the
cursor position P hold q zeros and then a one (at absolute bit P + q),
readNext consumes exactly them, returns the quotient shifted into place
or-ed with the fixed-bits read at the fixed cursor, and leaves the cursor
in the canonical post-terminator state. -/
theorem readNext_spec {st : RState} {P q : Nat} (l : Nat)
    (hw : WordsOK st.data) (hinv : InvAt st P)
    (hz : ∀ i, i < q → bitOf st.data (P + i) = false)
    (h1 : bitOf st.data (P + q) = true)
    (hbnd : P + q < 64 * st.data.length)
    (hqs : q < 2 ^ 32) :
    readNext st l = some ((q <<< l) % 2 ^ 64 ||| fixedRead st.data st.curr_fixed_offset l,
      canonicalState st.data (st.curr_fixed_offset + l) (P + q)) := by
  have hwbits := fun j => invAt_window_testBit hinv hw j
  obtain ⟨d, fo, win, ptr, valid⟩ := st
  obtain ⟨hp1, hp2, hp3, hvalid, hwin⟩ := hinv
  dsimp only at hwbits hw hz h1 hbnd hp1 hp2 hp3 hvalid hwin ⊢
  have hsr : ∀ (x a b : Nat), x >>> a >>> b = x >>> (a + b) :=
    fun x a b => (Nat.shiftRight_add x a b).symm
  by_cases hcase : q < 64 * ptr - P
  · -- the terminator lies inside the current window
    have hwq : win.testBit q = true := by
      rw [hwbits q, h1]
      simp [hcase]
    have hwnz : ¬ win = 0 := by
      intro h0
      rw [h0, Nat.zero_testBit] at hwq
      exact Bool.noConfusion hwq
    have hpos : rho win = q := by
      refine rho_eq (by omega) (fun i hi => ?_) hwq
      rw [hwbits i, hz i (by omega)]
      simp
    rw [readNext]
    dsimp only
    rw [if_neg hwnz]
    dsimp only
    rw [hpos]
    have e0 : (0 + q) % 2 ^ 64 = q := by
      rw [Nat.zero_add]
      exact Nat.mod_eq_of_lt (by omega)
    rw [e0]
    refine congrArg some (Prod.ext rfl ?_)
    unfold canonicalState
    simp only [RState.mk.injEq]
    refine ⟨trivial, trivial, ?_, by omega, ?_⟩
    · rw [hwin, hsr, hsr, hsr]
      have e2 : ptr - 1 = (P + q) / 64 := by omega
      have e1 : 64 - (64 * ptr - P) + (q + 1) = (P + q) % 64 + 1 := by omega
      rw [e2, e1]
    · rw [hvalid]
      omega
  · -- the window is exhausted of set bits: words are loaded
    have hwz : win = 0 := by
      apply Nat.eq_of_testBit_eq
      intro j
      rw [Nat.zero_testBit, hwbits j]
      by_cases hj : j < 64 * ptr - P
      · rw [hz j (by omega)]
        simp
      · simp [hj]
    set m := (P + q) / 64 with hm
    have hm_ge : ptr ≤ m := by omega
    have hm_lt : m < d.length := by omega
    set wst := d.getD m 0 with hwst
    have hbit_w : ∀ t, t < 64 → wst.testBit t = bitOf d (64 * m + t) :=
      fun t ht => testBit_getD_bitOf d m t ht
    have hwst_ne : wst ≠ 0 := by
      intro h0
      have hb := hbit_w ((P + q) % 64) (by omega)
      rw [h0, Nat.zero_testBit, show 64 * m + (P + q) % 64 = P + q by omega, h1] at hb
      exact Bool.noConfusion hb
    have hzero_words : ∀ j, j < m - ptr → d.get? (ptr + j) = some 0 := by
      intro j hj
      have hlt : ptr + j < d.length := by omega
      rw [get?_eq_some_getD hlt]
      congr 1
      apply Nat.eq_of_testBit_eq
      intro t
      rw [Nat.zero_testBit]
      by_cases ht : t < 64
      · rw [testBit_getD_bitOf d (ptr + j) t ht,
          show 64 * (ptr + j) + t = P + (64 * (ptr + j) + t - P) by omega]
        exact hz _ (by omega)
      · exact Nat.testBit_lt_two_pow (by
          calc d.getD (ptr + j) 0 < 2 ^ 64 := wordsOK_getD hw _
            _ ≤ 2 ^ t := Nat.pow_le_pow_right (by omega) (by omega))
    have hget_m : d.get? (ptr + (m - ptr)) = some wst := by
      rw [show ptr + (m - ptr) = m by omega]
      exact get?_eq_some_getD hm_lt
    have hfnz : findNonzeroAux (d.length + 1) d ptr = some (m - ptr, wst, ptr + (m - ptr) + 1) :=
      findNonzeroAux_eq (m - ptr) d ptr hzero_words hget_m hwst_ne (by omega)
    have hpos : rho wst = (P + q) % 64 := by
      refine rho_eq (by omega) (fun i hi => ?_) ?_
      · rw [hbit_w i (by omega), show 64 * m + i = P + (64 * m + i - P) by omega]
        exact hz _ (by omega)
      · rw [hbit_w _ (by omega), show 64 * m + (P + q) % 64 = P + q by omega]
        exact h1
    rw [readNext]
    dsimp only
    rw [if_pos hwz, hfnz]
    dsimp only
    rw [hpos, hvalid]
    have e1 : uadd64 0 ((64 * ptr - P : Nat) : Int) = 64 * ptr - P := by
      rw [uadd64_small 0 _ (by omega), Nat.zero_add]
    rw [e1]
    have e2 : (64 * ptr - P + 64 * (m - ptr)) % 2 ^ 64 = 64 * ptr - P + 64 * (m - ptr) :=
      Nat.mod_eq_of_lt (by omega)
    rw [e2]
    have e3 : (64 * ptr - P + 64 * (m - ptr) + (P + q) % 64) % 2 ^ 64 = q := by
      rw [show 64 * ptr - P + 64 * (m - ptr) + (P + q) % 64 = q by omega]
      exact Nat.mod_eq_of_lt (by omega)
    rw [e3]
    refine congrArg some (Prod.ext rfl ?_)
    unfold canonicalState
    simp only [RState.mk.injEq]
    exact ⟨trivial, trivial, trivial, by omega, by omega⟩

/-! Decoding a list of items. -/

theorem unaryBits_cons_length (q : Nat) (qs : List Nat) :
    (unaryBits (q :: qs)).length = q + 1 + (unaryBits qs).length := by
  rw [unaryBits_cons]
  simp
  omega

theorem unaryBits_getD_low {q : Nat} (qs : List Nat) {i : Nat} (h : i < q) :
    (unaryBits (q :: qs)).getD i false = false := by
  rw [unaryBits_cons, getD_append]
  have hc1 : i < (List.replicate q false ++ [true]).length := by
    simp only [List.length_append, List.length_replicate, List.length_cons, List.length_nil]
    omega
  rw [if_pos hc1, getD_append]
  have hc2 : i < (List.replicate q false).length := by
    simp only [List.length_replicate]
    omega
  rw [if_pos hc2, getD_replicate_any, if_pos h]

theorem unaryBits_getD_term (q : Nat) (qs : List Nat) :
    (unaryBits (q :: qs)).getD q false = true := by
  rw [unaryBits_cons, getD_append]
  have hc1 : q < (List.replicate q false ++ [true]).length := by
    simp only [List.length_append, List.length_replicate, List.length_cons, List.length_nil]
    omega
  rw [if_pos hc1, getD_append]
  have hc2 : ¬ q < (List.replicate q false).length := by
    simp only [List.length_replicate]
    omega
  rw [if_neg hc2]
  simp

theorem unaryBits_getD_shift (q : Nat) (qs : List Nat) (j : Nat) :
    (unaryBits (q :: qs)).getD (q + 1 + j) false = (unaryBits qs).getD j false := by
  rw [unaryBits_cons, getD_append]
  have hc1 : ¬ q + 1 + j < (List.replicate q false ++ [true]).length := by
    simp only [List.length_append, List.length_replicate, List.length_cons, List.length_nil]
    omega
  rw [if_neg hc1]
  have hc2 : q + 1 + j - (List.replicate q false ++ [true]).length = j := by
    simp only [List.length_append, List.length_replicate, List.length_cons, List.length_nil]
    omega
  rw [hc2]

theorem expectedVals_cons (d : List Nat) (fo : Nat) (q l : Nat) (ps : List (Nat × Nat)) :
    expectedVals d fo ((q, l) :: ps) =
      (((q % 2 ^ 64) <<< l) % 2 ^ 64 ||| fixedRead d fo l) :: expectedVals d (fo + l) ps := rfl

/-- Decoding all items of a (quotient, log2golomb) list from a cursor
satisfying the invariant at P, when the unary region starting at P encodes
exactly the quotients: the values are the expected ones and the final
cursor is the canonical state after the last terminator. -/
theorem decodeList_spec : ∀ (ps : List (Nat × Nat)) (st : RState) (P : Nat),
    WordsOK st.data → InvAt st P →
    (∀ j, j < (unaryBits (ps.map Prod.fst)).length →
      bitOf st.data (P + j) = (unaryBits (ps.map Prod.fst)).getD j false) →
    (∀ p ∈ ps, p.1 < 2 ^ 32) →
    P + (unaryBits (ps.map Prod.fst)).length ≤ 64 * st.data.length →
    decodeList st (ps.map Prod.snd) =
      some (expectedVals st.data st.curr_fixed_offset ps,
        if ps = [] then st
        else canonicalState st.data (st.curr_fixed_offset + (ps.map Prod.snd).sum)
          (P + (unaryBits (ps.map Prod.fst)).length - 1)) := by
  intro ps
  induction ps with
  | nil =>
    intro st P _ _ _ _ _
    simp [decodeList, expectedVals]
  | cons p rest ih =>
    intro st P hw hinv hu hq hbnd
    obtain ⟨q, l⟩ := p
    have hlen_cons : (unaryBits (q :: rest.map Prod.fst)).length =
        q + 1 + (unaryBits (rest.map Prod.fst)).length := unaryBits_cons_length _ _
    simp only [List.map_cons] at hu hbnd ⊢
    have hq1 : q < 2 ^ 32 := hq (q, l) (by simp)
    have hstep := @readNext_spec st P q l hw hinv
      (fun i hi => by
        rw [hu i (by omega), unaryBits_getD_low _ hi])
      (by
        rw [hu q (by omega), unaryBits_getD_term])
      (by omega) hq1
    have hrec := ih (canonicalState st.data (st.curr_fixed_offset + l) (P + q))
      (P + q + 1)
      (by
        show WordsOK st.data
        exact hw)
      (invAt_canonical _ _ _)
      (fun j hj => by
        show bitOf st.data (P + q + 1 + j) = _
        rw [show P + q + 1 + j = P + (q + 1 + j) by omega, hu (q + 1 + j) (by omega),
          unaryBits_getD_shift])
      (fun p hp => hq p (by simp [hp]))
      (by
        show P + q + 1 + (unaryBits (rest.map Prod.fst)).length ≤ 64 * st.data.length
        omega)
    have hdata : (canonicalState st.data (st.curr_fixed_offset + l) (P + q)).data =
      st.data := rfl
    have hfo : (canonicalState st.data (st.curr_fixed_offset + l) (P + q)).curr_fixed_offset =
      st.curr_fixed_offset + l := rfl
    rw [hdata, hfo] at hrec
    rw [decodeList, hstep]
    dsimp only
    rw [hrec]
    dsimp only
    rw [expectedVals_cons]
    have hqmod : q % 2 ^ 64 = q := Nat.mod_eq_of_lt (by omega)
    rw [hqmod]
    simp only [List.sum_cons]
    rw [if_neg (List.cons_ne_nil _ _)]
    by_cases hrest : rest = []
    · subst hrest
      rw [if_pos rfl]
      rw [show (List.map Prod.snd ([] : List (Nat × Nat))).sum = 0 from rfl]
      have hlq : (unaryBits (q :: List.map Prod.fst ([] : List (Nat × Nat)))).length = q + 1 := by
        rw [hlen_cons]
        rfl
      rw [hlq, Nat.add_zero, show P + (q + 1) - 1 = P + q by omega]
    · rw [if_neg hrest, hlen_cons]
      have e1 : st.curr_fixed_offset + l + (List.map Prod.snd rest).sum =
          st.curr_fixed_offset + (l + (List.map Prod.snd rest).sum) := by omega
      have e2 : P + q + 1 + (unaryBits (List.map Prod.fst rest)).length - 1 =
          P + (q + 1 + (unaryBits (List.map Prod.fst rest)).length) - 1 := by omega
      rw [e1, e2]

/-! Round trip: the expected decode values are the original values. -/

theorem shiftRecomb (v l : Nat) : (v >>> l) <<< l ||| v % 2 ^ l = v := by
  apply Nat.eq_of_testBit_eq
  intro i
  rw [Nat.testBit_or, Nat.testBit_shiftLeft, Nat.testBit_shiftRight, Nat.testBit_mod_two_pow]
  by_cases h : i < l
  · have h2 : ¬ i ≥ l := by omega
    simp [h, h2]
  · have h2 : i ≥ l := by omega
    have h3 : l + (i - l) = i := by omega
    simp [h, h2, h3]

theorem shiftRight_shiftLeft_le (v l : Nat) : (v >>> l) <<< l ≤ v := by
  rw [Nat.shiftLeft_eq, Nat.shiftRight_eq_div_pow]
  calc v / 2 ^ l * 2 ^ l ≤ v := Nat.div_mul_le_self v (2 ^ l)

theorem fixedBits_getD_head {v l : Nat} (items : List (Nat × Nat)) {t : Nat} (h : t < l) :
    (fixedBits ((v, l) :: items)).getD t false = v.testBit t := by
  rw [fixedBits_cons, getD_append]
  have hc : t < ((List.range l).map (Nat.testBit v)).length := by
    simp only [List.length_map, List.length_range]
    omega
  rw [if_pos hc, getD_range_map, if_pos h]

theorem fixedBits_getD_shift (v l : Nat) (items : List (Nat × Nat)) (j : Nat) :
    (fixedBits ((v, l) :: items)).getD (l + j) false = (fixedBits items).getD j false := by
  rw [fixedBits_cons, getD_append]
  have hc : ¬ l + j < ((List.range l).map (Nat.testBit v)).length := by
    simp only [List.length_map, List.length_range]
    omega
  rw [if_neg hc]
  have he : l + j - ((List.range l).map (Nat.testBit v)).length = j := by
    simp only [List.length_map, List.length_range]
    omega
  rw [he]

theorem expectedVals_eq_values : ∀ (items : List (Nat × Nat)) (d : List Nat) (fo : Nat),
    (∀ p ∈ items, p.1 < 2 ^ 64 ∧ p.2 ≤ 57 ∧ p.1 >>> p.2 < 2 ^ 32) →
    (∀ j, j < (fixedBits items).length →
      bitOf d (fo + j) = (fixedBits items).getD j false) →
    expectedVals d fo (items.map fun p => (p.1 >>> p.2 % 2 ^ 32, p.2)) = items.map Prod.fst := by
  intro items
  induction items with
  | nil =>
    intro d fo _ _
    rfl
  | cons p rest ih =>
    intro d fo hvalid hbits
    obtain ⟨v, l⟩ := p
    obtain ⟨hv64, hl57, hq32⟩ := hvalid (v, l) (by simp)
    have hflen : (fixedBits ((v, l) :: rest)).length = l + (fixedBits rest).length := by
      rw [fixedBits_cons]
      simp
    simp only [List.map_cons]
    rw [show ((v, l) : Nat × Nat).1 >>> ((v, l) : Nat × Nat).2 % 2 ^ 32 = v >>> l % 2 ^ 32
      from rfl]
    have hqe : v >>> l % 2 ^ 32 = v >>> l := Nat.mod_eq_of_lt hq32
    rw [hqe, expectedVals_cons]
    have hfr : fixedRead d fo l = v % 2 ^ l := by
      refine fixedRead_eq_mod (by omega) (fun j hj => ?_)
      rw [hbits j (by omega), fixedBits_getD_head rest hj]
    have hsl : (v >>> l) <<< l ≤ v := shiftRight_shiftLeft_le v l
    have hm1 : v >>> l % 2 ^ 64 = v >>> l := by
      have : v >>> l ≤ v := by
        rw [Nat.shiftRight_eq_div_pow]
        exact Nat.div_le_self _ _
      exact Nat.mod_eq_of_lt (by omega)
    have hm2 : (v >>> l) <<< l % 2 ^ 64 = (v >>> l) <<< l := Nat.mod_eq_of_lt (by omega)
    rw [hfr, hm1, hm2, shiftRecomb]
    have hrec := ih d (fo + l) (fun p hp => hvalid p (by simp [hp]))
      (fun j hj => by
        rw [show fo + l + j = fo + (l + j) by omega, hbits (l + j) (by omega),
          fixedBits_getD_shift])
    rw [hrec]

theorem readReset_succeeds {v : RiceBitVector} {bp off : Nat}
    (h : (bp + off) / 64 < v.data.length) :
    readReset v bp off = some ⟨v.data, bp,
      v.data.getD ((bp + off) / 64) 0 >>> ((bp + off) % 64), (bp + off) / 64 + 1,
      ((64 - (bp + off) % 64 : Nat) : Int)⟩ := by
  rw [readReset, get?_eq_some_getD h]

/-- The full round trip, under the conditions the code actually requires:
values in uint64_t range, quotients representable in uint32_t, and
log2golomb at most 57 so that the 8-byte unaligned fixed read always
covers the remainder. -/
theorem encodeDecode_eq (items : List (Nat × Nat))
    (hvalid : ∀ p ∈ items, p.1 < 2 ^ 64 ∧ p.2 ≤ 57 ∧ p.1 >>> p.2 < 2 ^ 32) :
    encodeDecode items = some (items.map Prod.fst) := by
  have hl63 : ∀ p ∈ items, p.2 ≤ 63 := fun p hp => by
    have := (hvalid p hp).2.1
    omega
  obtain ⟨⟨hbc, hw, hbits⟩, hlen⟩ := content_buildStream items hl63
  set qs := items.map (fun p => p.1 >>> p.2 % 2 ^ 32) with hqs
  set S := fixedBits items ++ unaryBits qs with hS
  set d := (buildStream items).data with hd
  set F := (fixedBits items).length with hF
  set U := (unaryBits qs).length with hU
  have hB : (buildStream items).bit_count = F + U := by
    rw [hbc]
    simp [hS]
  have hcover : F + U + 56 ≤ 64 * d.length := by
    rw [hlen]
    omega
  have hFsum : (items.map Prod.snd).sum = F := (fixedBits_length items).symm
  have hrr := @readReset_succeeds (Builder.build (buildStream items)) 0
    ((items.map Prod.snd).sum)
    (by
      show (0 + (items.map Prod.snd).sum) / 64 < d.length
      rw [Nat.zero_add, hFsum]
      omega)
  rw [show (buildStream items).build.data = d from rfl] at hrr
  have hinv := readReset_invAt hrr
  obtain ⟨hrd, hrfo, hrinv, _⟩ := hinv
  set st0 : RState := ⟨d, 0, d.getD ((0 + (items.map Prod.snd).sum) / 64) 0 >>>
      ((0 + (items.map Prod.snd).sum) % 64), (0 + (items.map Prod.snd).sum) / 64 + 1,
      ((64 - (0 + (items.map Prod.snd).sum) % 64 : Nat) : Int)⟩ with hst0
  have hP0 : (0 : Nat) + (items.map Prod.snd).sum = F := by
    rw [Nat.zero_add, hFsum]
  set ps := items.map (fun p => (p.1 >>> p.2 % 2 ^ 32, p.2)) with hps
  have hps_fst : ps.map Prod.fst = qs := by
    rw [hps, hqs, List.map_map]
    rfl
  have hps_snd : ps.map Prod.snd = items.map Prod.snd := by
    rw [hps, List.map_map]
    rfl
  have hdec := decodeList_spec ps st0 F
    (by
      show WordsOK d
      exact hw)
    (by
      rw [hst0]
      rw [← hP0]
      exact hrinv)
    (by
      intro j hj
      rw [hps_fst] at hj ⊢
      show bitOf d (F + j) = (unaryBits qs).getD j false
      rw [hbits (F + j)]
      rw [hS, getD_append]
      rw [if_neg (by omega), show F + j - (fixedBits items).length = j by omega])
    (by
      intro p hp
      rw [hps] at hp
      obtain ⟨x, hx, hpe⟩ := List.mem_map.mp hp
      rw [← hpe]
      exact Nat.mod_lt _ (by omega))
    (by
      rw [hps_fst]
      show F + U ≤ 64 * d.length
      omega)
  rw [hps_snd] at hdec
  have hvals : expectedVals st0.data st0.curr_fixed_offset ps = items.map Prod.fst := by
    show expectedVals d 0 ps = items.map Prod.fst
    refine expectedVals_eq_values items d 0 hvalid (fun j hj => ?_)
    rw [Nat.zero_add, hbits j, hS, getD_append, if_pos (by omega)]
  rw [hvals] at hdec
  rw [encodeDecode, hrr]
  dsimp only
  rw [hdec]

/-! Counting facts for the skip path. -/

theorem countTrue_eq_zero {f : Nat → Bool} : ∀ {n : Nat}, (∀ i, i < n → f i = false) →
    countTrue f n = 0 := by
  intro n
  induction n with
  | zero => intro _; rfl
  | succ n ih =>
    intro h
    simp only [countTrue, h n (by omega), ih (fun i hi => h i (by omega))]
    rfl

theorem countTrue_mono {f : Nat → Bool} {n m : Nat} (h : n ≤ m) :
    countTrue f n ≤ countTrue f m := by
  rw [show m = n + (m - n) by omega, countTrue_split]
  omega

theorem countTrue_ge_one {f : Nat → Bool} {j n : Nat} (hj : j < n) (hf : f j = true) :
    1 ≤ countTrue f n := by
  have h1 : countTrue f (j + 1) = countTrue f j + 1 := by
    rw [countTrue_succ_top, hf]
    simp
  have h2 := countTrue_mono (f := f) (show j + 1 ≤ n by omega)
  omega

theorem unaryBits_count_all : ∀ qs : List Nat,
    countTrue (fun i => (unaryBits qs).getD i false) (unaryBits qs).length = qs.length := by
  intro qs
  induction qs with
  | nil => rfl
  | cons q rest ih =>
    rw [unaryBits_cons_length, List.length_cons]
    rw [show q + 1 + (unaryBits rest).length = (q + 1) + (unaryBits rest).length from rfl,
      countTrue_split]
    have h1 : countTrue (fun i => (unaryBits (q :: rest)).getD i false) (q + 1) = 1 := by
      rw [countTrue_succ_top, countTrue_eq_zero (fun i hi => unaryBits_getD_low rest hi),
        unaryBits_getD_term]
      rfl
    have h2 : countTrue (fun i => (unaryBits (q :: rest)).getD (q + 1 + i) false)
        (unaryBits rest).length = rest.length := by
      rw [countTrue_congr _ (fun i _ => unaryBits_getD_shift q rest i)]
      exact ih
    omega

theorem unaryBits_getD_last {qs : List Nat} (h : qs ≠ []) :
    (unaryBits qs).getD ((unaryBits qs).length - 1) false = true := by
  induction qs with
  | nil => exact absurd rfl h
  | cons q rest ih =>
    by_cases hr : rest = []
    · subst hr
      rw [unaryBits_cons_length]
      rw [show q + 1 + (unaryBits ([] : List Nat)).length - 1 = q from rfl]
      exact unaryBits_getD_term q []
    · have hlen : 1 ≤ (unaryBits rest).length := by
        cases rest with
        | nil => exact absurd rfl hr
        | cons r rs =>
          rw [unaryBits_cons_length]
          omega
      rw [unaryBits_cons_length,
        show q + 1 + (unaryBits rest).length - 1 = q + 1 + ((unaryBits rest).length - 1)
          by omega,
        unaryBits_getD_shift]
      exact ih hr

theorem unaryBits_count_head {qs : List Nat} (h : qs ≠ []) :
    countTrue (fun i => (unaryBits qs).getD i false) ((unaryBits qs).length - 1) =
      qs.length - 1 := by
  have hlen : 1 ≤ (unaryBits qs).length := by
    cases qs with
    | nil => exact absurd rfl h
    | cons q rest =>
      rw [unaryBits_cons_length]
      omega
  have hall := unaryBits_count_all qs
  rw [show (unaryBits qs).length = ((unaryBits qs).length - 1) + 1 by omega,
    countTrue_succ_top] at hall
  rw [unaryBits_getD_last h, if_pos (rfl : (true : Bool) = true)] at hall
  have hqpos : 1 ≤ qs.length := by
    cases qs with
    | nil => exact absurd rfl h
    | cons _ _ => simp
  omega

theorem window_nu {d : List Nat} {w ptr P : Nat} {valid : Int}
    (hw : WordsOK d)
    (hinv : InvAt ⟨d, 0, w, ptr, valid⟩ P) :
    nu w = countTrue (fun i => bitOf d (P + i)) (64 * ptr - P) := by
  have hbits := fun j => invAt_window_testBit hinv hw j
  dsimp only at hbits
  obtain ⟨hp1, hp2, hp3, hvalid, hwin⟩ := hinv
  dsimp only at hp1 hp2 hp3 hvalid hwin
  have hwlt : w < 2 ^ 64 := by
    rw [hwin]
    calc d.getD (ptr - 1) 0 >>> (64 - (64 * ptr - P)) ≤ d.getD (ptr - 1) 0 := by
          rw [Nat.shiftRight_eq_div_pow]
          exact Nat.div_le_self _ _
      _ < 2 ^ 64 := wordsOK_getD hw _
  have hz : countTrue (fun i => w.testBit (64 * ptr - P + i)) (64 - (64 * ptr - P)) = 0 :=
    countTrue_eq_zero (fun i hi => by
      rw [hbits]
      simp [show ¬ (64 * ptr - P + i < 64 * ptr - P) by omega])
  have hs := countTrue_split w.testBit (64 * ptr - P) (64 - (64 * ptr - P))
  rw [show 64 * ptr - P + (64 - (64 * ptr - P)) = 64 by omega, hz, Nat.add_zero] at hs
  rw [nu_eq w hwlt, hs]
  exact countTrue_congr _ (fun i hi => by
    rw [hbits i]
    simp [hi])

/-- The word-consuming loop of skipSubtree reaches the word containing the
target terminator T (the missing-th set bit at or after the cursor
position), leaving a residual count m2 and window position P2 within that
word. -/
theorem skipLoop_spec : ∀ (fuel : Nat) (d : List Nat) (w ptr missing : Nat) (valid : Int)
    (P T : Nat),
    WordsOK d →
    InvAt ⟨d, 0, w, ptr, valid⟩ P →
    1 ≤ missing → P ≤ T → bitOf d T = true →
    countTrue (fun i => bitOf d (P + i)) (T - P) = missing - 1 →
    T < 64 * d.length →
    T / 64 + 2 ≤ ptr + fuel →
    ∃ m2 P2, skipLoop fuel d w ptr missing valid =
        some (d.getD (T / 64) 0 >>> (64 - (64 * (T / 64 + 1) - P2)), T / 64 + 1, m2,
          ((64 * (T / 64 + 1) - P2 : Nat) : Int)) ∧
      64 * (T / 64) ≤ P2 ∧ P2 ≤ T ∧ 1 ≤ m2 ∧
      countTrue (fun i => bitOf d (P2 + i)) (T - P2) = m2 - 1 := by
  intro fuel
  induction fuel with
  | zero =>
    intro d w ptr missing valid P T hw hinv hm hPT hT hcnt hTb hfuel
    obtain ⟨hp1, hp2, hp3, _, _⟩ := hinv
    dsimp only at hp1 hp2 hp3
    exfalso
    omega
  | succ fuel ih =>
    intro d w ptr missing valid P T hw hinv hm hPT hT hcnt hTb hfuel
    have hnu := window_nu hw hinv
    obtain ⟨hp1, hp2, hp3, hvalid, hwin⟩ := hinv
    dsimp only at hp1 hp2 hp3 hvalid hwin
    by_cases hcase : T < 64 * ptr
    · have hTdiv : T / 64 = ptr - 1 := by omega
      have hge : ¬ nu w < missing := by
        rw [hnu]
        have h2 := countTrue_split (fun i => bitOf d (P + i)) (T - P)
          (64 * ptr - P - (T - P))
        rw [show T - P + (64 * ptr - P - (T - P)) = 64 * ptr - P by omega] at h2
        have h3 : 1 ≤ countTrue (fun i => bitOf d (P + (T - P + i)))
            (64 * ptr - P - (T - P)) := by
          refine countTrue_ge_one (j := 0) (by omega) ?_
          rw [show P + (T - P + 0) = T by omega]
          exact hT
        omega
      have hstep : skipLoop (fuel + 1) d w ptr missing valid =
          some (w, ptr, missing, valid) := by
        rw [skipLoop]
        rw [if_neg hge]
      refine ⟨missing, P, ?_, by omega, by omega, hm, hcnt⟩
      rw [hstep, hTdiv, show ptr - 1 + 1 = ptr by omega, hwin, hvalid]
    · have hlt : ptr < d.length := by omega
      have hget := get?_eq_some_getD hlt
      have hlt2 : nu w < missing := by
        rw [hnu]
        have := countTrue_mono (f := fun i => bitOf d (P + i))
          (show 64 * ptr - P ≤ T - P by omega)
        omega
      have hstep : skipLoop (fuel + 1) d w ptr missing valid =
          skipLoop fuel d (d.getD ptr 0) (ptr + 1) (missing - nu w) 64 := by
        rw [skipLoop]
        rw [if_pos hlt2, hget]
      have hrec := ih d (d.getD ptr 0) (ptr + 1) (missing - nu w) 64 (64 * ptr) T hw
        (by
          unfold InvAt
          dsimp only
          refine ⟨by omega, by omega, by omega, by omega, ?_⟩
          rw [show 64 - (64 * (ptr + 1) - 64 * ptr) = 0 by omega, Nat.shiftRight_zero,
            show ptr + 1 - 1 = ptr by omega])
        (by omega) (by omega) hT
        (by
          have h2 := countTrue_split (fun i => bitOf d (P + i)) (64 * ptr - P)
            (T - 64 * ptr)
          rw [show 64 * ptr - P + (T - 64 * ptr) = T - P by omega] at h2
          have h3 : countTrue (fun i => bitOf d (P + (64 * ptr - P + i))) (T - 64 * ptr) =
              countTrue (fun i => bitOf d (64 * ptr + i)) (T - 64 * ptr) :=
            countTrue_congr _ (fun i _ => by
              rw [show P + (64 * ptr - P + i) = 64 * ptr + i by omega])
          omega)
        hTb (by omega)
      rw [hstep]
      exact hrec

/-- skipSubtree over the complete unary codes of the quotient list qs:
succeeds and leaves the cursor in the canonical state right after the last
terminator, with the fixed cursor advanced by fixed_len. -/
theorem skipSubtree_spec {st : RState} {P : Nat} {qs : List Nat} (fixed_len : Nat)
    (hw : WordsOK st.data) (hinv : InvAt st P)
    (hu : ∀ j, j < (unaryBits qs).length →
      bitOf st.data (P + j) = (unaryBits qs).getD j false)
    (hne : qs ≠ [])
    (hbnd : P + (unaryBits qs).length ≤ 64 * st.data.length) :
    skipSubtree st qs.length fixed_len =
      some (canonicalState st.data (st.curr_fixed_offset + fixed_len)
        (P + (unaryBits qs).length - 1)) := by
  obtain ⟨d, fo, win, ptr, valid⟩ := st
  obtain ⟨hp1, hp2, hp3, hvalid, hwin⟩ := hinv
  dsimp only at hw hu hbnd hp1 hp2 hp3 hvalid hwin ⊢
  set L := (unaryBits qs).length with hL
  have hL1 : 1 ≤ L := by
    cases qs with
    | nil => exact absurd rfl hne
    | cons q rest =>
      rw [hL, unaryBits_cons_length]
      omega
  have hnq : 1 ≤ qs.length := by
    cases qs with
    | nil => exact absurd rfl hne
    | cons _ _ => simp
  set T := P + L - 1 with hT
  have hbitT : bitOf d T = true := by
    rw [hT, show P + L - 1 = P + (L - 1) by omega, hu (L - 1) (by omega)]
    exact unaryBits_getD_last hne
  have hcnt : countTrue (fun i => bitOf d (P + i)) (T - P) = qs.length - 1 := by
    rw [hT, show P + L - 1 - P = L - 1 by omega,
      countTrue_congr _ (fun i hi => hu i (by omega))]
    exact unaryBits_count_head hne
  have hloop := skipLoop_spec (d.length + 1) d win ptr qs.length valid P T hw
    ⟨hp1, hp2, hp3, hvalid, hwin⟩ hnq (by omega) hbitT hcnt (by omega)
    (by
      have : T / 64 < d.length := by omega
      omega)
  obtain ⟨m2, P2, hloopeq, hP2lo, hP2hi, hm2, hcnt2⟩ := hloop
  set w2 := d.getD (T / 64) 0 >>> (64 - (64 * (T / 64 + 1) - P2)) with hw2
  have hinv2 : InvAt ⟨d, 0, w2, T / 64 + 1, ((64 * (T / 64 + 1) - P2 : Nat) : Int)⟩ P2 := by
    unfold InvAt
    dsimp only
    refine ⟨by omega, by omega, by omega, rfl, ?_⟩
    rw [hw2, show T / 64 + 1 - 1 = T / 64 by omega]
  have hwbits := fun j => invAt_window_testBit hinv2 hw j
  dsimp only at hwbits
  have hcg : countTrue w2.testBit (T - P2) =
      countTrue (fun i => bitOf d (P2 + i)) (T - P2) :=
    countTrue_congr _ (fun i hi => by
      rw [hwbits i]
      have hb : i < 64 * (T / 64 + 1) - P2 := by omega
      simp [hb])
  have hsel : select64 w2 (m2 - 1) = T - P2 := by
    refine select64_eq (by omega) ?_ ?_
    · rw [hcg]
      exact hcnt2
    · rw [hwbits (T - P2), show P2 + (T - P2) = T by omega, hbitT]
      simp [show T - P2 < 64 * (T / 64 + 1) - P2 by omega]
  rw [skipSubtree, if_neg (by omega), hloopeq]
  dsimp only
  rw [hsel]
  unfold canonicalState
  simp only [Option.some.injEq, RState.mk.injEq]
  refine ⟨trivial, trivial, ?_, trivial, by omega⟩
  rw [hw2]
  have hsr : ∀ (x a b : Nat), x >>> a >>> b = x >>> (a + b) :=
    fun x a b => (Nat.shiftRight_add x a b).symm
  rw [hsr, hsr, hsr,
    show 64 - (64 * (T / 64 + 1) - P2) + (T - P2 + 1) = T % 64 + 1 by omega]

/-! Fenwick find contract. -/

theorem prefSum_zero (xs : List Nat) : prefSum xs 0 = 0 := rfl

theorem prefSum_cons (x : Nat) (rest : List Nat) (l : Nat) :
    prefSum (x :: rest) (l + 1) = x + prefSum rest l := by
  simp [prefSum, List.sum_cons]

theorem fenwickFind_spec (xs : List Nat) (b : Nat) :
    (fenwickFind xs b).1 ≤ xs.length ∧
    prefSum xs (fenwickFind xs b).1 ≤ b ∧
    (∀ L, L ≤ xs.length → prefSum xs L ≤ b → L ≤ (fenwickFind xs b).1) ∧
    ((fenwickFind xs b).1 < xs.length → b < prefSum xs ((fenwickFind xs b).1 + 1)) ∧
    (fenwickFind xs b).2 = b - prefSum xs (fenwickFind xs b).1 := by
  induction xs generalizing b with
  | nil =>
    refine ⟨Nat.le_refl 0, ?_, ?_, ?_, ?_⟩
    · show prefSum [] 0 ≤ b
      rw [prefSum_zero]
      omega
    · intro L hL _
      have hL0 : L = 0 := by simpa using hL
      subst hL0
      exact Nat.zero_le _
    · intro h
      simp at h
    · show b = b - prefSum [] 0
      rw [prefSum_zero]
      omega
  | cons x rest ih =>
    by_cases hx : x ≤ b
    · obtain ⟨ih1, ih2, ih3, ih4, ih5⟩ := ih (b - x)
      have hfind : fenwickFind (x :: rest) b =
          ((fenwickFind rest (b - x)).1 + 1, (fenwickFind rest (b - x)).2) := by
        rw [fenwickFind, if_pos hx]
      rw [hfind]
      dsimp only
      refine ⟨by simp only [List.length_cons]; omega, ?_, ?_, ?_, ?_⟩
      · rw [prefSum_cons]
        omega
      · intro L hL hpre
        cases L with
        | zero => omega
        | succ L2 =>
          rw [prefSum_cons] at hpre
          have h5 := ih3 L2 (by simp only [List.length_cons] at hL; omega) (by omega)
          omega
      · intro hlt
        rw [prefSum_cons]
        have h6 := ih4 (by simp only [List.length_cons] at hlt; omega)
        omega
      · rw [prefSum_cons]
        omega
    · have hfind : fenwickFind (x :: rest) b = (0, b) := by
        rw [fenwickFind, if_neg hx]
      rw [hfind]
      dsimp only
      refine ⟨Nat.zero_le _, ?_, ?_, ?_, ?_⟩
      · rw [prefSum_zero]
        omega
      · intro L hL hpre
        cases L with
        | zero => exact Nat.le_refl 0
        | succ L2 =>
          rw [prefSum_cons] at hpre
          omega
      · intro _
        rw [prefSum_cons, prefSum_zero]
        omega
      · rw [prefSum_zero]
        omega

/-! Reachable builder states and the zero-tail invariant. -/

theorem content_alloc (n : Nat) : Content ⟨List.replicate n 0, 0⟩ [] := by
  refine ⟨rfl, wordsOK_replicate n, fun k => ?_⟩
  show ((List.replicate n 0).getD (k / 64) 0).testBit (k % 64) = ([] : List Bool).getD k false
  rw [getD_replicate]
  simp [Nat.zero_testBit]

theorem reachable_content {st : Builder} (h : ReachableB st) : ∃ L, Content st L := by
  induction h with
  | alloc n => exact ⟨[], content_alloc n⟩
  | fixed v l _ hl ih =>
    obtain ⟨L, hc⟩ := ih
    exact ⟨L ++ (List.range l).map v.testBit, content_appendFixed hc v hl⟩
  | unary us _ _ ih =>
    obtain ⟨L, hc⟩ := ih
    exact ⟨L ++ unaryBits us, (content_appendUnaryAll hc us).1⟩

theorem builder0_zero_tail : ∀ k, builder0.bit_count ≤ k → bitOf builder0.data k = false :=
  fun k _ => by
    rw [content_builder0.2.2 k]
    simp [List.getD]

theorem builder0_wordsOK : WordsOK builder0.data := content_builder0.2.1

/-! Helper: any builder with the zero-tail invariant represents the list of
its first bit_count bits. -/

theorem content_of_zero_tail {st : Builder}
    (hzt : ∀ k, st.bit_count ≤ k → bitOf st.data k = false) (hw : WordsOK st.data) :
    Content st ((List.range st.bit_count).map (bitOf st.data)) := by
  refine ⟨by simp, hw, fun k => ?_⟩
  rw [getD_range_map]
  by_cases h : k < st.bit_count
  · rw [if_pos h]
  · rw [if_neg h]
    exact hzt k (by omega)

/-! Claim C5: appendFixed postcondition. -/

/-- C5: for every Builder state with bit count B satisfying the builder
invariant (all bits at or past the cursor are zero, words in range) and
every v and log2golomb l with l at most 63, appendFixed(v, l) makes stream
bits B .. B+l-1 equal the low l bits of v, leaves bits 0 .. B-1 unchanged,
keeps everything past B+l zero, and increases the bit count by exactly l. -/
theorem c5_appendFixed_postcondition (st : Builder) (v l : Nat) (hl : l ≤ 63)
    (hzt : ∀ k, st.bit_count ≤ k → bitOf st.data k = false)
    (hw : WordsOK st.data) :
    (appendFixed st v l).bit_count = st.bit_count + l ∧
    (∀ j, j < l → bitOf (appendFixed st v l).data (st.bit_count + j) = v.testBit j) ∧
    (∀ k, k < st.bit_count → bitOf (appendFixed st v l).data k = bitOf st.data k) ∧
    (∀ k, st.bit_count + l ≤ k → bitOf (appendFixed st v l).data k = false) := by
  obtain ⟨h1, h2, h3⟩ := content_appendFixed (content_of_zero_tail hzt hw) v hl
  have hLlen : ((List.range st.bit_count).map (bitOf st.data)).length = st.bit_count := by
    simp
  refine ⟨?_, ?_, ?_, ?_⟩
  · rw [h1]
    simp
  · intro j hj
    rw [h3 (st.bit_count + j), getD_append, if_neg (by omega),
      show st.bit_count + j - ((List.range st.bit_count).map (bitOf st.data)).length = j
        by omega,
      getD_range_map, if_pos hj]
  · intro k hk
    rw [h3 k, getD_append, if_pos (by omega), getD_range_map, if_pos hk]
  · intro k hk
    rw [h3 k, getD_append, if_neg (by omega), getD_range_map,
      if_neg (by
        simp only [List.length_map, List.length_range] at *
        omega)]

/-- C5 witness at a concrete input. -/
theorem c5_appendFixed_postcondition_witness :
    (appendFixed builder0 5 3).bit_count = 0 + 3 ∧
    (∀ j, j < 3 → bitOf (appendFixed builder0 5 3).data (0 + j) = (5 : Nat).testBit j) ∧
    (∀ k, k < 0 → bitOf (appendFixed builder0 5 3).data k = bitOf builder0.data k) ∧
    (∀ k, 0 + 3 ≤ k → bitOf (appendFixed builder0 5 3).data k = false) :=
  c5_appendFixed_postcondition builder0 5 3 (by omega) builder0_zero_tail builder0_wordsOK

/-! Claim C6: appendUnaryAll postcondition. -/

/-- C6: for every Builder state with bit count B satisfying the builder
invariant and every quotient list (each in uint32 range), appendUnaryAll
writes, contiguously from bit B and in order, u zero bits and one set bit
per quotient u (the unaryBits pattern), leaves bits below B unchanged,
increases the bit count by the sum of u+1, and resizes the buffer once up
front to the word count covering that total. -/
theorem c6_appendUnaryAll_postcondition (st : Builder) (us : List Nat)
    (_hu : ∀ u ∈ us, u < 2 ^ 32)
    (hzt : ∀ k, st.bit_count ≤ k → bitOf st.data k = false)
    (hw : WordsOK st.data) :
    (appendUnaryAll st us).bit_count = st.bit_count + (us.map (· + 1)).sum ∧
    (∀ j, j < (unaryBits us).length →
      bitOf (appendUnaryAll st us).data (st.bit_count + j) = (unaryBits us).getD j false) ∧
    (∀ k, k < st.bit_count → bitOf (appendUnaryAll st us).data k = bitOf st.data k) ∧
    (∀ k, st.bit_count + (us.map (· + 1)).sum ≤ k →
      bitOf (appendUnaryAll st us).data k = false) ∧
    (appendUnaryAll st us).data.length =
      ((st.bit_count + (us.map (· + 1)).sum + 7) / 8 + 7 + 7) / 8 ∧
    st.bit_count + (us.map (· + 1)).sum ≤ 64 * (appendUnaryAll st us).data.length := by
  obtain ⟨⟨h1, h2, h3⟩, hlen⟩ := content_appendUnaryAll (content_of_zero_tail hzt hw) us
  have hLlen : ((List.range st.bit_count).map (bitOf st.data)).length = st.bit_count := by
    simp
  have hUlen := unaryBits_length us
  refine ⟨?_, ?_, ?_, ?_, hlen, ?_⟩
  · rw [h1]
    simp [hUlen]
  · intro j hj
    rw [h3 (st.bit_count + j), getD_append, if_neg (by omega),
      show st.bit_count + j - ((List.range st.bit_count).map (bitOf st.data)).length = j
        by omega]
  · intro k hk
    rw [h3 k, getD_append, if_pos (by omega), getD_range_map, if_pos hk]
  · intro k hk
    rw [h3 k, getD_append, if_neg (by omega)]
    exact getD_len_le false (by omega)
  · rw [hlen]
    omega

/-- C6 witness at a concrete input. -/
theorem c6_appendUnaryAll_postcondition_witness :
    (appendUnaryAll builder0 [0, 2]).bit_count = 0 + ([0, 2].map (· + 1)).sum ∧
    (∀ j, j < (unaryBits [0, 2]).length →
      bitOf (appendUnaryAll builder0 [0, 2]).data (0 + j) = (unaryBits [0, 2]).getD j false) ∧
    (∀ k, k < 0 → bitOf (appendUnaryAll builder0 [0, 2]).data k = bitOf builder0.data k) ∧
    (∀ k, 0 + ([0, 2].map (· + 1)).sum ≤ k →
      bitOf (appendUnaryAll builder0 [0, 2]).data k = false) ∧
    (appendUnaryAll builder0 [0, 2]).data.length =
      ((0 + ([0, 2].map (· + 1)).sum + 7) / 8 + 7 + 7) / 8 ∧
    0 + ([0, 2].map (· + 1)).sum ≤ 64 * (appendUnaryAll builder0 [0, 2]).data.length :=
  c6_appendUnaryAll_postcondition builder0 [0, 2] (by decide) builder0_zero_tail
    builder0_wordsOK

/-! Claim C9: the Fenwick find contract (modelled from the spec, since
FenwickTree::find is a pure virtual contract with no implementation in
src/). -/

/-- C9: for every sequence of nonnegative elements and every bound b,
find(b) returns the greatest length whose prefix sum is at most b (hence
the unique length with prefix(length) ≤ b < prefix(length + 1), or the
full size when even that prefix fits), together with the excess
b - prefix(length); when no nonempty prefix satisfies the bound, it
returns length 0 with the full bound as excess. -/
theorem c9_fenwick_find_contract (xs : List Nat) (b : Nat) :
    prefSum xs (fenwickFind xs b).1 ≤ b ∧
    (∀ L, L ≤ xs.length → prefSum xs L ≤ b → L ≤ (fenwickFind xs b).1) ∧
    ((fenwickFind xs b).1 < xs.length → b < prefSum xs ((fenwickFind xs b).1 + 1)) ∧
    (fenwickFind xs b).1 ≤ xs.length ∧
    (fenwickFind xs b).2 = b - prefSum xs (fenwickFind xs b).1 ∧
    ((∀ L, 1 ≤ L → L ≤ xs.length → ¬ prefSum xs L ≤ b) →
      (fenwickFind xs b).1 = 0 ∧ (fenwickFind xs b).2 = b) := by
  obtain ⟨h1, h2, h3, h4, h5⟩ := fenwickFind_spec xs b
  refine ⟨h2, h3, h4, h1, h5, ?_⟩
  intro hno
  have hz : (fenwickFind xs b).1 = 0 := by
    by_contra hc
    exact hno _ (by omega) h1 h2
  refine ⟨hz, ?_⟩
  rw [h5, hz, prefSum_zero]
  omega

/-! Claim C10: the implicit zero-tail builder invariant. -/

/-- C10: after Builder construction and after every appendFixed (with
C-valid log2golomb) and appendUnaryAll call, every stream bit at position
at least bit_count is zero (and all buffer words stay in uint64 range) —
the invariant appendUnaryAll relies on, since it writes only the
terminating one bits. -/
theorem c10_builder_zero_tail (st : Builder) (h : ReachableB st) :
    (∀ k, st.bit_count ≤ k → bitOf st.data k = false) ∧ WordsOK st.data := by
  obtain ⟨L, hbc, hw, hbits⟩ := reachable_content h
  refine ⟨fun k hk => ?_, hw⟩
  rw [hbits k]
  exact getD_len_le false (by omega)

/-- C10 witness at a concrete reachable builder state. -/
theorem c10_builder_zero_tail_witness :
    bitOf (appendUnaryAll (appendFixed builder0 5 3) [2]).data 9 = false :=
  (c10_builder_zero_tail (appendUnaryAll (appendFixed builder0 5 3) [2])
    (ReachableB.unary [2] (ReachableB.fixed 5 3 (ReachableB.alloc 16) (by omega))
      (by decide))).1 9 (by decide)

/-! Claim C2: the concrete scenario. -/

/-- The builder of claim C2: appendFixed(3, 2), appendFixed(1, 2), then
appendUnaryAll([0, 2]). -/
def c2Builder : Builder := appendUnaryAll (appendFixed (appendFixed builder0 3 2) 1 2) [0, 2]

/-- C2 counterexample: the sealed stream holds 4 + 4 = 8 written bits, not
the 4 + 6 = 10 the claim states (the unary codes 1 and 001 take 4 bits). -/
theorem c2_bit_count_fails : Builder.getBits c2Builder = 8 ∧ (8 : Nat) ≠ 10 := by decide

/-- C2 amended: the scenario stream has 8 written bits, and a reader reset
to the stream start returns 3 from the first readNext(2) and 9 from the
second. -/
theorem c2_scenario_amended :
    Builder.getBits c2Builder = 8 ∧
    (Option.bind (readReset (Builder.build c2Builder) 0 4) fun st =>
      Option.map Prod.fst (decodeList st [2, 2])) = some [3, 9] := by decide

/-! Claim C7: getBits of a sealed vector. -/

/-- C7: RiceBitVector::getBits returns data.size() * sizeof(uint64_t),
which is the byte count 8 per word, not the bit capacity 64 per word the
spec describes: on the one-word sealed scenario stream it returns 8, not
64. -/
theorem c7_getBits_returns_bytes :
    (Builder.build c2Builder).data.length = 1 ∧
    RiceBitVector.getBits (Builder.build c2Builder) = 8 ∧ (8 : Nat) ≠ 64 * 1 := by decide

/-! Claim C1: the round trip. -/

/-- C1 counterexample: the claim as stated fails already for the single
item (2^32, 0): the quotient 2^32 is truncated by the uint32_t argument
type of appendUnaryAll, and decoding returns 0. -/
theorem c1_as_stated_fails :
    encodeDecode [(4294967296, 0)] = some [0] ∧
    encodeDecode [(4294967296, 0)] ≠ some [4294967296] := by decide

/-- C1 amended: the round trip holds for every finite sequence of items
(v, l) with v < 2^64, provided additionally that each quotient v >> l fits
the uint32_t parameter of appendUnaryAll and that each l is at most 57, so
that the 8-byte fixed read of readNext covers the whole remainder. -/
theorem c1_round_trip_amended (items : List (Nat × Nat))
    (h : ∀ p ∈ items, p.1 < 2 ^ 64 ∧ p.2 ≤ 57 ∧ p.1 >>> p.2 < 2 ^ 32) :
    encodeDecode items = some (items.map Prod.fst) :=
  encodeDecode_eq items h

/-- C1 witness at a concrete item list. -/
theorem c1_round_trip_amended_witness :
    encodeDecode [(5, 2), (300, 4), (7, 0)] = some [5, 300, 7] :=
  c1_round_trip_amended [(5, 2), (300, 4), (7, 0)] (by decide)

/-! Soundness of the primitives on arbitrary successful runs, for the
cursor invariant of claim C8. -/

theorem getD_of_get?_eq {d : List Nat} {i w : Nat} (h : d.get? i = some w) :
    d.getD i 0 = w := by
  rw [List.getD_eq_getElem?_getD, ← List.get?_eq_getElem?, h]
  rfl

theorem rhoAux_sound : ∀ (fuel w : Nat), w ≠ 0 → w < 2 ^ fuel →
    rhoAux fuel w < fuel ∧ w.testBit (rhoAux fuel w) = true ∧
      ∀ i, i < rhoAux fuel w → w.testBit i = false := by
  intro fuel
  induction fuel with
  | zero =>
    intro w hne h
    interval_cases w
    · exact absurd rfl hne
  | succ fuel ih =>
    intro w hne h
    by_cases h2 : w % 2 = 1
    · have he : rhoAux (fuel + 1) w = 0 := by simp [rhoAux, h2]
      rw [he]
      refine ⟨by omega, by simp [Nat.testBit_zero, h2], fun i hi => by omega⟩
    · have hw2 : w % 2 = 0 := by omega
      have hne2 : w / 2 ≠ 0 := by omega
      have hlt2 : w / 2 < 2 ^ fuel := by
        rw [Nat.pow_succ] at h
        omega
      obtain ⟨ih1, ih2, ih3⟩ := ih (w / 2) hne2 hlt2
      have he : rhoAux (fuel + 1) w = rhoAux fuel (w / 2) + 1 := by simp [rhoAux, h2]
      rw [he]
      refine ⟨by omega, ?_, ?_⟩
      · rw [← Nat.testBit_div_two]
        exact ih2
      · intro i hi
        cases i with
        | zero => simp [Nat.testBit_zero, hw2]
        | succ i2 =>
          rw [← Nat.testBit_div_two]
          exact ih3 i2 (by omega)

theorem rho_sound (w : Nat) (hne : w ≠ 0) (hlt : w < 2 ^ 64) :
    rho w < 64 ∧ w.testBit (rho w) = true ∧ ∀ i, i < rho w → w.testBit i = false :=
  rhoAux_sound 64 w hne hlt

theorem findNonzeroAux_sound : ∀ (fuel : Nat) (d : List Nat) (p z w p2 : Nat),
    findNonzeroAux fuel d p = some (z, w, p2) →
    p2 = p + z + 1 ∧ d.get? (p + z) = some w ∧ w ≠ 0 := by
  intro fuel
  induction fuel with
  | zero =>
    intro d p z w p2 h
    simp [findNonzeroAux] at h
  | succ fuel ih =>
    intro d p z w p2 h
    rw [findNonzeroAux] at h
    rcases hg : d.get? p with _ | w0
    · rw [hg] at h
      simp at h
    · rw [hg] at h
      dsimp only at h
      by_cases h0 : w0 = 0
      · rw [if_pos h0] at h
        rcases hr : findNonzeroAux fuel d (p + 1) with _ | zz
        · rw [hr] at h
          simp at h
        · obtain ⟨z1, w1, p1⟩ := zz
          rw [hr] at h
          simp only [Option.some.injEq, Prod.mk.injEq] at h
          obtain ⟨hz, hw, hp⟩ := h
          obtain ⟨e1, e2, e3⟩ := ih d (p + 1) z1 w1 p1 hr
          subst hz hw hp
          refine ⟨by omega, ?_, e3⟩
          rw [show p + (z1 + 1) = p + 1 + z1 by omega]
          exact e2
      · rw [if_neg h0] at h
        simp only [Option.some.injEq, Prod.mk.injEq] at h
        obtain ⟨hz, hw, hp⟩ := h
        subst hz hw hp
        exact ⟨rfl, by simpa using hg, h0⟩

theorem shiftRight_lt_pow {x a s : Nat} (h : x < 2 ^ a) (hs : s ≤ a) :
    x >>> s < 2 ^ (a - s) := by
  rw [Nat.shiftRight_eq_div_pow]
  rw [Nat.div_lt_iff_lt_mul (Nat.two_pow_pos s)]
  calc x < 2 ^ a := h
    _ = 2 ^ (a - s) * 2 ^ s := by
        rw [← Nat.pow_add]
        congr 1
        omega

theorem invAt_window_lt {st : RState} {P : Nat} (h : InvAt st P) (hw : WordsOK st.data) :
    st.curr_window_unary < 2 ^ (64 * st.curr_ptr_unary - P) := by
  obtain ⟨hp1, hp2, hp3, hvalid, hwin⟩ := h
  rw [hwin]
  have := shiftRight_lt_pow (wordsOK_getD hw (st.curr_ptr_unary - 1))
    (show 64 - (64 * st.curr_ptr_unary - P) ≤ 64 by omega)
  rw [show 64 - (64 - (64 * st.curr_ptr_unary - P)) = 64 * st.curr_ptr_unary - P
    by omega] at this
  exact this

theorem invAt_valid_bounds {st : RState} {P : Nat} (h : InvAt st P) :
    0 ≤ st.valid_lower_bits_unary ∧ st.valid_lower_bits_unary ≤ 64 := by
  obtain ⟨hp1, hp2, hp3, hvalid, _⟩ := h
  rw [hvalid]
  omega

theorem skipLoop_sound : ∀ (fuel : Nat) (d : List Nat) (w ptr missing : Nat) (valid : Int)
    (P : Nat) (w2 p2 m2 : Nat) (v2 : Int),
    InvAt ⟨d, 0, w, ptr, valid⟩ P → 1 ≤ missing →
    skipLoop fuel d w ptr missing valid = some (w2, p2, m2, v2) →
    ∃ P2, InvAt ⟨d, 0, w2, p2, v2⟩ P2 ∧ 1 ≤ m2 ∧ ¬ nu w2 < m2 := by
  intro fuel
  induction fuel with
  | zero =>
    intro d w ptr missing valid P w2 p2 m2 v2 _ _ h
    simp [skipLoop] at h
  | succ fuel ih =>
    intro d w ptr missing valid P w2 p2 m2 v2 hinv hm h
    rw [skipLoop] at h
    by_cases hc : nu w < missing
    · rw [if_pos hc] at h
      rcases hg : d.get? ptr with _ | w1
      · rw [hg] at h
        simp at h
      · rw [hg] at h
        have hw1 : d.getD ptr 0 = w1 := getD_of_get?_eq hg
        refine ih d w1 (ptr + 1) (missing - nu w) 64 (64 * ptr) w2 p2 m2 v2 ?_ (by omega) h
        unfold InvAt
        dsimp only
        refine ⟨by omega, by omega, by omega, by omega, ?_⟩
        rw [show 64 - (64 * (ptr + 1) - 64 * ptr) = 0 by omega, Nat.shiftRight_zero,
          show ptr + 1 - 1 = ptr by omega, hw1]
    · rw [if_neg hc] at h
      simp only [Option.some.injEq, Prod.mk.injEq] at h
      obtain ⟨h1, h2, h3, h4⟩ := h
      subst h1 h2 h3 h4
      exact ⟨P, hinv, hm, hc⟩

/-! Claim C8: the cursor invariant. -/

/-- C8: readReset establishes the cursor invariant (there is an absolute
unary position P the cursor represents, and validUnaryBits lies in
[0, 64]); every successful readNext and skipSubtree call (in-bounds calls
are exactly those that return a value rather than running off the buffer)
preserves it, reloading the window from the next word whenever the
remaining window is exhausted. -/
theorem c8_cursor_invariant :
    (∀ (v : RiceBitVector) (bp off : Nat) (st : RState),
      readReset v bp off = some st →
      (∃ P, InvAt st P) ∧ 0 ≤ st.valid_lower_bits_unary ∧ st.valid_lower_bits_unary ≤ 64) ∧
    (∀ (st : RState) (l x : Nat) (st2 : RState), WordsOK st.data → (∃ P, InvAt st P) →
      readNext st l = some (x, st2) →
      (∃ P, InvAt st2 P) ∧ 0 ≤ st2.valid_lower_bits_unary ∧ st2.valid_lower_bits_unary ≤ 64) ∧
    (∀ (st : RState) (n f : Nat) (st2 : RState), WordsOK st.data → (∃ P, InvAt st P) →
      skipSubtree st n f = some st2 →
      (∃ P, InvAt st2 P) ∧ 0 ≤ st2.valid_lower_bits_unary ∧ st2.valid_lower_bits_unary ≤ 64) := by
  refine ⟨?_, ?_, ?_⟩
  · intro v bp off st h
    obtain ⟨_, _, hinv, _⟩ := readReset_invAt h
    exact ⟨⟨bp + off, hinv⟩, invAt_valid_bounds hinv⟩
  · intro st l x st2 hw hex h
    obtain ⟨P, hinv⟩ := hex
    have hwl := invAt_window_lt hinv hw
    obtain ⟨d, fo, win, ptr, valid⟩ := st
    obtain ⟨hp1, hp2, hp3, hvalid, hwin⟩ := hinv
    dsimp only at hw hwl hp1 hp2 hp3 hvalid hwin h
    by_cases hwz : win = 0
    · rw [readNext] at h
      dsimp only at h
      rw [if_pos hwz] at h
      rcases hf : findNonzeroAux (d.length + 1) d ptr with _ | zz
      · rw [hf] at h
        simp at h
      · obtain ⟨z, w1, p1⟩ := zz
        rw [hf] at h
        dsimp only at h
        simp only [Option.some.injEq, Prod.mk.injEq] at h
        obtain ⟨hx, hst⟩ := h
        obtain ⟨e1, e2, e3⟩ := findNonzeroAux_sound _ d ptr z w1 p1 hf
        have hw1 : d.getD (ptr + z) 0 = w1 := getD_of_get?_eq e2
        have hw1lt : w1 < 2 ^ 64 := by
          rw [← hw1]
          exact wordsOK_getD hw _
        obtain ⟨hr1, hr2, hr3⟩ := rho_sound w1 e3 hw1lt
        subst hst
        refine ⟨⟨64 * (ptr + z) + rho w1 + 1, ?_⟩, ?_, ?_⟩
        · unfold InvAt
          dsimp only
          subst e1
          refine ⟨by omega, by omega, by omega, by omega, ?_⟩
          rw [show ptr + z + 1 - 1 = ptr + z by omega, hw1,
            show 64 - (64 * (ptr + z + 1) - (64 * (ptr + z) + rho w1 + 1)) = rho w1 + 1
              by omega, Nat.shiftRight_add]
        · dsimp only
          have : rho w1 < 64 := hr1
          omega
        · dsimp only
          have : rho w1 < 64 := hr1
          omega
    · rw [readNext] at h
      dsimp only at h
      rw [if_neg hwz] at h
      dsimp only at h
      simp only [Option.some.injEq, Prod.mk.injEq] at h
      obtain ⟨hx, hst⟩ := h
      have hwin64 : win < 2 ^ 64 := by
        calc win < 2 ^ (64 * ptr - P) := hwl
          _ ≤ 2 ^ 64 := Nat.pow_le_pow_right (by omega) (by omega)
      obtain ⟨hr1, hr2, hr3⟩ := rho_sound win hwz hwin64
      have hrlt : rho win < 64 * ptr - P := by
        by_contra hcon
        have : win.testBit (rho win) = false := Nat.testBit_lt_two_pow (by
          calc win < 2 ^ (64 * ptr - P) := hwl
            _ ≤ 2 ^ rho win := Nat.pow_le_pow_right (by omega) (by omega))
        rw [this] at hr2
        exact Bool.noConfusion hr2
      subst hst
      refine ⟨⟨P + rho win + 1, ?_⟩, ?_, ?_⟩
      · unfold InvAt
        dsimp only
        refine ⟨by omega, by omega, by omega, by rw [hvalid]; omega, ?_⟩
        have hexp : 64 - (64 * ptr - (P + rho win + 1)) =
            64 - (64 * ptr - P) + (rho win + 1) := by omega
        rw [hexp, Nat.shiftRight_add, Nat.shiftRight_add, ← hwin]
      · dsimp only
        rw [hvalid]
        omega
      · dsimp only
        rw [hvalid]
        omega
  · intro st n f st2 hw hex h
    obtain ⟨P, hinv⟩ := hex
    obtain ⟨d, fo, win, ptr, valid⟩ := st
    dsimp only at hw h
    rw [skipSubtree] at h
    by_cases hn : n = 0
    · rw [if_pos hn] at h
      simp at h
    · rw [if_neg hn] at h
      rcases hl : skipLoop (d.length + 1) d win ptr n valid with _ | tt
      · rw [hl] at h
        simp at h
      · obtain ⟨w2, p2, m2, v2⟩ := tt
        rw [hl] at h
        dsimp only at h
        simp only [Option.some.injEq] at h
        obtain ⟨P2, hinv2, hm2, hnu⟩ :=
          skipLoop_sound _ d win ptr n valid P w2 p2 m2 v2 hinv (by omega) hl
        have hw2lt := invAt_window_lt hinv2 (by
          show WordsOK d
          exact hw)
        dsimp only at hw2lt
        obtain ⟨hq1, hq2, hq3, hqvalid, hqwin⟩ := hinv2
        dsimp only at hq1 hq2 hq3 hqvalid hqwin
        have hw2lt64 : w2 < 2 ^ 64 := by
          calc w2 < 2 ^ (64 * p2 - P2) := hw2lt
            _ ≤ 2 ^ 64 := Nat.pow_le_pow_right (by omega) (by omega)
        have hcount : m2 - 1 < countTrue w2.testBit 64 := by
          rw [← nu_eq w2 hw2lt64]
          omega
        obtain ⟨s, hs64, hscnt, hsbit⟩ := countTrue_exists hcount
        have hsel : select64 w2 (m2 - 1) = s := select64_eq hs64 hscnt hsbit
        have hslt : s < 64 * p2 - P2 := by
          by_contra hcon
          have : w2.testBit s = false := Nat.testBit_lt_two_pow (by
            calc w2 < 2 ^ (64 * p2 - P2) := hw2lt
              _ ≤ 2 ^ s := Nat.pow_le_pow_right (by omega) (by omega))
          rw [this] at hsbit
          exact Bool.noConfusion hsbit
        subst h
        refine ⟨⟨P2 + s + 1, ?_⟩, ?_, ?_⟩
        · unfold InvAt
          dsimp only
          rw [hsel]
          refine ⟨by omega, by omega, by omega, by rw [hqvalid]; omega, ?_⟩
          have hexp : 64 - (64 * p2 - (P2 + s + 1)) =
              64 - (64 * p2 - P2) + (s + 1) := by omega
          rw [hexp, Nat.shiftRight_add, Nat.shiftRight_add, ← hqwin]
        · dsimp only
          rw [hsel, hqvalid]
          omega
        · dsimp only
          rw [hsel, hqvalid]
          omega

/-! Segment plumbing for the skip-equivalence and reset claims. -/

theorem unaryBits_append (a b : List Nat) :
    unaryBits (a ++ b) = unaryBits a ++ unaryBits b := by
  simp [unaryBits]

theorem fixedBits_append (a b : List (Nat × Nat)) :
    fixedBits (a ++ b) = fixedBits a ++ fixedBits b := by
  simp [fixedBits]

theorem getD_append_left {α : Type} (L1 L2 : List α) (dflt : α) {k : Nat}
    (h : k < L1.length) : (L1 ++ L2).getD k dflt = L1.getD k dflt := by
  rw [getD_append, if_pos h]

theorem getD_append_right {α : Type} (L1 L2 : List α) (dflt : α) (k : Nat) :
    (L1 ++ L2).getD (L1.length + k) dflt = L2.getD k dflt := by
  rw [getD_append, if_neg (by omega), Nat.add_sub_cancel_left]

theorem stream_unary_getD (A B C : List (Nat × Nat)) (j : Nat)
    (hj : j < (unaryBits (B.map fun p => p.1 >>> p.2 % 2 ^ 32)).length) :
    (fixedBits (A ++ B ++ C) ++
        unaryBits ((A ++ B ++ C).map fun p => p.1 >>> p.2 % 2 ^ 32)).getD
      ((fixedBits (A ++ B ++ C)).length +
        (unaryBits (A.map fun p => p.1 >>> p.2 % 2 ^ 32)).length + j) false =
    (unaryBits (B.map fun p => p.1 >>> p.2 % 2 ^ 32)).getD j false := by
  have hsplit : unaryBits ((A ++ B ++ C).map fun p => p.1 >>> p.2 % 2 ^ 32) =
      (unaryBits (A.map fun p => p.1 >>> p.2 % 2 ^ 32) ++
        unaryBits (B.map fun p => p.1 >>> p.2 % 2 ^ 32)) ++
        unaryBits (C.map fun p => p.1 >>> p.2 % 2 ^ 32) := by
    rw [List.map_append, List.map_append, unaryBits_append, unaryBits_append]
  rw [show (fixedBits (A ++ B ++ C)).length +
      (unaryBits (A.map fun p => p.1 >>> p.2 % 2 ^ 32)).length + j =
      (fixedBits (A ++ B ++ C)).length +
      ((unaryBits (A.map fun p => p.1 >>> p.2 % 2 ^ 32)).length + j) by omega]
  rw [getD_append_right, hsplit]
  rw [getD_append_left _ _ _ (by rw [List.length_append]; omega)]
  rw [getD_append_right]

theorem stream_fixed_getD (A B C : List (Nat × Nat)) (j : Nat)
    (hj : j < (fixedBits B).length) :
    (fixedBits (A ++ B ++ C) ++
        unaryBits ((A ++ B ++ C).map fun p => p.1 >>> p.2 % 2 ^ 32)).getD
      ((fixedBits A).length + j) false =
    (fixedBits B).getD j false := by
  have hsplit : fixedBits (A ++ B ++ C) =
      (fixedBits A ++ fixedBits B) ++ fixedBits C := by
    rw [fixedBits_append, fixedBits_append]
  have hlenF : (fixedBits (A ++ B ++ C)).length =
      (fixedBits A).length + (fixedBits B).length + (fixedBits C).length := by
    rw [hsplit, List.length_append, List.length_append]
  rw [getD_append_left _ _ _ (by omega), hsplit]
  rw [getD_append_left _ _ _ (by rw [List.length_append]; omega)]
  rw [getD_append_right]

set_option maxHeartbeats 1600000 in
/-- Decoding any middle segment B of the sealed stream A ++ B ++ C from a
cursor sitting at B's boundary (fixed cursor past A's fixed bits, unary
cursor past A's unary codes) yields B's values and the canonical cursor
after B's last terminator. -/
theorem decode_mid (A B C items : List (Nat × Nat)) (hI : items = A ++ B ++ C)
    (hvalid : ∀ p ∈ items, p.1 < 2 ^ 64 ∧ p.2 ≤ 57 ∧ p.1 >>> p.2 < 2 ^ 32)
    (st : RState) (P : Nat)
    (hdata : st.data = (buildStream items).data)
    (hfo : st.curr_fixed_offset = (fixedBits A).length)
    (hP : P = (fixedBits items).length +
      (unaryBits (A.map fun p => p.1 >>> p.2 % 2 ^ 32)).length)
    (hinv : InvAt st P) :
    decodeList st (B.map Prod.snd) =
      some (B.map Prod.fst,
        if B = [] then st
        else canonicalState st.data
          (st.curr_fixed_offset + (B.map Prod.snd).sum)
          (P + (unaryBits (B.map fun p => p.1 >>> p.2 % 2 ^ 32)).length - 1)) := by
  subst hI
  subst hP
  have hl63 : ∀ p ∈ A ++ B ++ C, p.2 ≤ 63 := fun p hp => by
    have := (hvalid p hp).2.1
    omega
  obtain ⟨⟨hbc, hw, hbits⟩, hlen⟩ := content_buildStream (A ++ B ++ C) hl63
  have hUsplit : (unaryBits ((A ++ B ++ C).map fun p => p.1 >>> p.2 % 2 ^ 32)).length =
      (unaryBits (A.map fun p => p.1 >>> p.2 % 2 ^ 32)).length +
        (unaryBits (B.map fun p => p.1 >>> p.2 % 2 ^ 32)).length +
        (unaryBits (C.map fun p => p.1 >>> p.2 % 2 ^ 32)).length := by
    rw [List.map_append, List.map_append, unaryBits_append, unaryBits_append,
      List.length_append, List.length_append]
  have hcover : (fixedBits (A ++ B ++ C)).length +
      (unaryBits ((A ++ B ++ C).map fun p => p.1 >>> p.2 % 2 ^ 32)).length + 56 ≤
      64 * (buildStream (A ++ B ++ C)).data.length := by
    rw [hlen]
    omega
  have hmapfst : (B.map fun p => (p.1 >>> p.2 % 2 ^ 32, p.2)).map Prod.fst =
      B.map fun p => p.1 >>> p.2 % 2 ^ 32 := by
    rw [List.map_map]
    rfl
  have hmapsnd : (B.map fun p => (p.1 >>> p.2 % 2 ^ 32, p.2)).map Prod.snd =
      B.map Prod.snd := by
    rw [List.map_map]
    rfl
  have hu : ∀ j, j < (unaryBits
      ((B.map fun p => (p.1 >>> p.2 % 2 ^ 32, p.2)).map Prod.fst)).length →
      bitOf st.data ((fixedBits (A ++ B ++ C)).length +
        (unaryBits (A.map fun p => p.1 >>> p.2 % 2 ^ 32)).length + j) =
      (unaryBits ((B.map fun p => (p.1 >>> p.2 % 2 ^ 32, p.2)).map Prod.fst)).getD
        j false := by
    intro j hj
    rw [hmapfst] at hj ⊢
    rw [hdata]
    rw [hbits ((fixedBits (A ++ B ++ C)).length +
      (unaryBits (A.map fun p => p.1 >>> p.2 % 2 ^ 32)).length + j)]
    exact stream_unary_getD A B C j hj
  have hq : ∀ p ∈ B.map fun p => (p.1 >>> p.2 % 2 ^ 32, p.2), p.1 < 2 ^ 32 := by
    intro p hp
    obtain ⟨x, hx, hpe⟩ := List.mem_map.mp hp
    rw [← hpe]
    exact Nat.mod_lt _ (by omega)
  have hbnd : (fixedBits (A ++ B ++ C)).length +
      (unaryBits (A.map fun p => p.1 >>> p.2 % 2 ^ 32)).length +
      (unaryBits ((B.map fun p => (p.1 >>> p.2 % 2 ^ 32, p.2)).map Prod.fst)).length ≤
      64 * st.data.length := by
    rw [hmapfst, hdata]
    omega
  have hdec := decodeList_spec (B.map fun p => (p.1 >>> p.2 % 2 ^ 32, p.2)) st
    ((fixedBits (A ++ B ++ C)).length +
      (unaryBits (A.map fun p => p.1 >>> p.2 % 2 ^ 32)).length)
    (by rw [hdata]; exact hw) hinv hu hq hbnd
  rw [hmapsnd, hmapfst] at hdec
  have hvalsB : expectedVals st.data st.curr_fixed_offset
      (B.map fun p => (p.1 >>> p.2 % 2 ^ 32, p.2)) = B.map Prod.fst := by
    rw [hdata, hfo]
    refine expectedVals_eq_values B (buildStream (A ++ B ++ C)).data
      (fixedBits A).length
      (fun p hp => hvalid p (by simp [List.mem_append, hp])) (fun j hj => ?_)
    rw [hbits ((fixedBits A).length + j)]
    exact stream_fixed_getD A B C j hj
  rw [hvalsB] at hdec
  have hiff : ((B.map fun p => (p.1 >>> p.2 % 2 ^ 32, p.2)) = []) = (B = []) := by
    refine propext ⟨fun h => ?_, fun h => by subst h; rfl⟩
    rcases B with _ | ⟨b, bs⟩
    · rfl
    · exact absurd h (by simp)
  simp only [hiff] at hdec
  exact hdec

/-- C3 counterexample: the claim quantifies over all k, m at least 0, but
skipSubtree asserts nodes is greater than zero, so the k = 0 instance
fails: from the start-of-stream cursor of the sealed one-item stream for
(3, 2), skipSubtree with 0 nodes aborts while direct decoding succeeds. -/
theorem c3_zero_nodes_fails :
    readReset ((buildStream [(3, 2)]).build) 0 2 =
      some ⟨[7], 0, 1, 1, 62⟩ ∧
    skipSubtree ⟨[7], 0, 1, 1, 62⟩ 0 0 = none ∧
    decodeList (⟨[7], 0, 1, 1, 62⟩ : RState) [2] =
      some ([3], ⟨[7], 2, 0, 1, 61⟩) := by
  refine ⟨by decide, rfl, by decide⟩

/-- C3 (amended): skip equivalence holds for k at least 1 (skipSubtree
asserts nodes is positive).  For every sealed stream of items whose values
fit uint64_t, whose quotients fit uint32_t, and whose per-item parameters
are at most 57, and every 1 ≤ k with k + m ≤ n: from the start-of-stream
cursor, skipSubtree over k items with their total fixed length lands in
exactly the reader state that decoding the first k items with readNext
produces (so decoding m further items yields the same values and final
state along either path), skipSubtree itself producing no decoded values,
and decoding the next m items from that state yields their values. -/
theorem c3_skip_equivalence (items : List (Nat × Nat)) (k m : Nat)
    (hvalid : ∀ p ∈ items, p.1 < 2 ^ 64 ∧ p.2 ≤ 57 ∧ p.1 >>> p.2 < 2 ^ 32)
    (hk : 1 ≤ k) (hkm : k + m ≤ items.length) :
    ∃ st0 st1 : RState,
      readReset (buildStream items).build 0 ((items.map Prod.snd).sum) = some st0 ∧
      decodeList st0 ((items.take k).map Prod.snd) =
        some ((items.take k).map Prod.fst, st1) ∧
      skipSubtree st0 k (((items.take k).map Prod.snd).sum) = some st1 ∧
      ∃ st2, decodeList st1 (((items.drop k).take m).map Prod.snd) =
        some (((items.drop k).take m).map Prod.fst, st2) := by
  have hl63 : ∀ p ∈ items, p.2 ≤ 63 := fun p hp => by
    have := (hvalid p hp).2.1
    omega
  obtain ⟨⟨hbc, hw, hbits⟩, hlen⟩ := content_buildStream items hl63
  have hcover : (fixedBits items).length +
      (unaryBits (items.map fun p => p.1 >>> p.2 % 2 ^ 32)).length + 56 ≤
      64 * (buildStream items).data.length := by
    rw [hlen]
    omega
  have hFsumEq : (items.map Prod.snd).sum = (fixedBits items).length :=
    (fixedBits_length items).symm
  have hsplitU : unaryBits (items.map fun p => p.1 >>> p.2 % 2 ^ 32) =
      unaryBits ((items.take k).map fun p => p.1 >>> p.2 % 2 ^ 32) ++
      unaryBits ((items.drop k).map fun p => p.1 >>> p.2 % 2 ^ 32) := by
    rw [← unaryBits_append, ← List.map_append, List.take_append_drop]
  have hUsp : (unaryBits (items.map fun p => p.1 >>> p.2 % 2 ^ 32)).length =
      (unaryBits ((items.take k).map fun p => p.1 >>> p.2 % 2 ^ 32)).length +
      (unaryBits ((items.drop k).map fun p => p.1 >>> p.2 % 2 ^ 32)).length := by
    rw [hsplitU, List.length_append]
  have hdiv0 : (0 + (items.map Prod.snd).sum) / 64 <
      ((buildStream items).build).data.length := by
    show (0 + (items.map Prod.snd).sum) / 64 < (buildStream items).data.length
    omega
  have hrr := @readReset_succeeds ((buildStream items).build) 0
    ((items.map Prod.snd).sum) hdiv0
  obtain ⟨st0, hrr0⟩ : ∃ s : RState,
      readReset (buildStream items).build 0 ((items.map Prod.snd).sum) = some s :=
    ⟨_, hrr⟩
  obtain ⟨hrd, hrfo, hrinv, _⟩ := readReset_invAt hrr0
  have hneK : items.take k ≠ [] := by
    intro hcon
    have := congrArg List.length hcon
    simp only [List.length_take, List.length_nil] at this
    omega
  have hkne : (items.take k).map (fun p => p.1 >>> p.2 % 2 ^ 32) ≠ [] := by
    intro hcon
    have := congrArg List.length hcon
    simp only [List.length_map, List.length_take, List.length_nil] at this
    omega
  have hGK1 : 1 ≤ (unaryBits ((items.take k).map fun p => p.1 >>> p.2 % 2 ^ 32)).length := by
    obtain ⟨u, us, hus⟩ := List.exists_cons_of_ne_nil hkne
    rw [hus, unaryBits_cons_length]
    omega
  have hlk : ((items.take k).map fun p => p.1 >>> p.2 % 2 ^ 32).length = k := by
    rw [List.length_map, List.length_take]
    omega
  have hI1 : items = [] ++ items.take k ++ items.drop k := by
    rw [List.nil_append, List.take_append_drop]
  have h0u : (unaryBits (([] : List (Nat × Nat)).map fun p => p.1 >>> p.2 % 2 ^ 32)).length
      = 0 := rfl
  have hdec1 := decode_mid [] (items.take k) (items.drop k) items hI1 hvalid st0
    (0 + (items.map Prod.snd).sum)
    (by rw [hrd]; rfl)
    (by rw [hrfo]; rfl)
    (by omega)
    hrinv
  rw [if_neg hneK] at hdec1
  have huK : ∀ j, j < (unaryBits ((items.take k).map fun p => p.1 >>> p.2 % 2 ^ 32)).length →
      bitOf st0.data (0 + (items.map Prod.snd).sum + j) =
      (unaryBits ((items.take k).map fun p => p.1 >>> p.2 % 2 ^ 32)).getD j false := by
    intro j hj
    rw [hrd, show ((buildStream items).build).data = (buildStream items).data from rfl]
    rw [hbits (0 + (items.map Prod.snd).sum + j)]
    rw [show 0 + (items.map Prod.snd).sum + j = (fixedBits items).length + j by omega]
    rw [getD_append_right, hsplitU]
    exact getD_append_left _ _ _ hj
  have hbndK : 0 + (items.map Prod.snd).sum +
      (unaryBits ((items.take k).map fun p => p.1 >>> p.2 % 2 ^ 32)).length ≤
      64 * st0.data.length := by
    rw [hrd, show ((buildStream items).build).data = (buildStream items).data from rfl]
    omega
  have hskip := skipSubtree_spec (((items.take k).map Prod.snd).sum)
    (by rw [hrd]; exact hw) hrinv huK hkne hbndK
  rw [hlk] at hskip
  have hI3 : items = items.take k ++ (items.drop k).take m ++ (items.drop k).drop m := by
    rw [List.append_assoc, List.take_append_drop, List.take_append_drop]
  have hdec3 := decode_mid (items.take k) ((items.drop k).take m) ((items.drop k).drop m)
    items hI3 hvalid
    (canonicalState st0.data
      (st0.curr_fixed_offset + ((items.take k).map Prod.snd).sum)
      (0 + (items.map Prod.snd).sum +
        (unaryBits ((items.take k).map fun p => p.1 >>> p.2 % 2 ^ 32)).length - 1))
    (0 + (items.map Prod.snd).sum +
      (unaryBits ((items.take k).map fun p => p.1 >>> p.2 % 2 ^ 32)).length - 1 + 1)
    (by
      show st0.data = (buildStream items).data
      rw [hrd]; rfl)
    (by
      show st0.curr_fixed_offset + ((items.take k).map Prod.snd).sum =
        (fixedBits (items.take k)).length
      rw [hrfo, fixedBits_length]
      omega)
    (by
      rw [fixedBits_length] at hFsumEq ⊢
      omega)
    (invAt_canonical _ _ _)
  exact ⟨st0, _, hrr0, hdec1, hskip, ⟨_, hdec3⟩⟩

theorem map_fst_drop : ∀ (i : Nat) (items : List (Nat × Nat)),
    (items.drop i).map Prod.fst = (items.map Prod.fst).drop i := by
  intro i
  induction i with
  | zero =>
    intro items
    rfl
  | succ n ih =>
    intro items
    cases items with
    | nil => rfl
    | cons p ps => simp [ih ps]

/-- C3 witness at the three-item stream for (13, 2), (9, 2), (7, 3) with
k = 1 and m = 2. -/
theorem c3_skip_equivalence_witness :
    (∀ p ∈ ([(13, 2), (9, 2), (7, 3)] : List (Nat × Nat)),
      p.1 < 2 ^ 64 ∧ p.2 ≤ 57 ∧ p.1 >>> p.2 < 2 ^ 32) ∧
    1 ≤ 1 ∧
    1 + 2 ≤ ([(13, 2), (9, 2), (7, 3)] : List (Nat × Nat)).length ∧
    (∃ st0 st1 : RState,
      readReset (buildStream [(13, 2), (9, 2), (7, 3)]).build 0
          ((([(13, 2), (9, 2), (7, 3)] : List (Nat × Nat)).map Prod.snd).sum) = some st0 ∧
      decodeList st0 ((([(13, 2), (9, 2), (7, 3)] : List (Nat × Nat)).take 1).map Prod.snd) =
        some (((([(13, 2), (9, 2), (7, 3)] : List (Nat × Nat)).take 1)).map Prod.fst, st1) ∧
      skipSubtree st0 1
          (((([(13, 2), (9, 2), (7, 3)] : List (Nat × Nat)).take 1).map Prod.snd).sum) =
        some st1 ∧
      ∃ st2, decodeList st1
          (((([(13, 2), (9, 2), (7, 3)] : List (Nat × Nat)).drop 1).take 2).map Prod.snd) =
        some (((([(13, 2), (9, 2), (7, 3)] : List (Nat × Nat)).drop 1).take 2).map Prod.fst,
          st2)) :=
  ⟨by decide, le_refl 1, by decide,
    c3_skip_equivalence [(13, 2), (9, 2), (7, 3)] 1 2 (by decide) (by decide) (by decide)⟩

/-- C4: for every sealed stream and item boundary i, with bitPos the total
fixed bits before item i and bitPos + unaryOffset the absolute bit position
of item i's unary code, readReset sets the fixed cursor to exactly bitPos,
loads the unary window from the word containing that bit shifted right so
the bit is bit 0, sets validUnaryBits to 64 - (position mod 64), and
decoding the remaining items with readNext returns the same values that
sequential decoding from the start of the stream produces for items
i, i+1, .... -/
theorem c4_reset_correctness (items : List (Nat × Nat)) (i : Nat)
    (hvalid : ∀ p ∈ items, p.1 < 2 ^ 64 ∧ p.2 ≤ 57 ∧ p.1 >>> p.2 < 2 ^ 32)
    ( _hi : i ≤ items.length) :
    ∃ st : RState,
      readReset (buildStream items).build (((items.take i).map Prod.snd).sum)
        ((items.map Prod.snd).sum +
          (unaryBits ((items.take i).map fun p => p.1 >>> p.2 % 2 ^ 32)).length -
          ((items.take i).map Prod.snd).sum) = some st ∧
      st.curr_fixed_offset = ((items.take i).map Prod.snd).sum ∧
      st.curr_window_unary = (buildStream items).data.getD
          (((items.map Prod.snd).sum +
            (unaryBits ((items.take i).map fun p => p.1 >>> p.2 % 2 ^ 32)).length) / 64) 0 >>>
          (((items.map Prod.snd).sum +
            (unaryBits ((items.take i).map fun p => p.1 >>> p.2 % 2 ^ 32)).length) % 64) ∧
      st.curr_ptr_unary = ((items.map Prod.snd).sum +
          (unaryBits ((items.take i).map fun p => p.1 >>> p.2 % 2 ^ 32)).length) / 64 + 1 ∧
      st.valid_lower_bits_unary = ((64 - ((items.map Prod.snd).sum +
          (unaryBits ((items.take i).map fun p => p.1 >>> p.2 % 2 ^ 32)).length) % 64 : Nat) : Int) ∧
      ∃ stf, decodeList st ((items.drop i).map Prod.snd) =
        some ((items.map Prod.fst).drop i, stf) := by
  have hl63 : ∀ p ∈ items, p.2 ≤ 63 := fun p hp => by
    have := (hvalid p hp).2.1
    omega
  obtain ⟨⟨hbc, hw, hbits⟩, hlen⟩ := content_buildStream items hl63
  have hcover : (fixedBits items).length +
      (unaryBits (items.map fun p => p.1 >>> p.2 % 2 ^ 32)).length + 56 ≤
      64 * (buildStream items).data.length := by
    rw [hlen]
    omega
  have hFsumEq : (items.map Prod.snd).sum = (fixedBits items).length :=
    (fixedBits_length items).symm
  have hFsp : (items.map Prod.snd).sum =
      ((items.take i).map Prod.snd).sum + ((items.drop i).map Prod.snd).sum := by
    rw [← List.sum_append, ← List.map_append, List.take_append_drop]
  have hUsp : (unaryBits (items.map fun p => p.1 >>> p.2 % 2 ^ 32)).length =
      (unaryBits ((items.take i).map fun p => p.1 >>> p.2 % 2 ^ 32)).length +
      (unaryBits ((items.drop i).map fun p => p.1 >>> p.2 % 2 ^ 32)).length := by
    rw [← List.length_append, ← unaryBits_append, ← List.map_append,
      List.take_append_drop]
  have hoff : ((items.take i).map Prod.snd).sum +
      ((items.map Prod.snd).sum +
        (unaryBits ((items.take i).map fun p => p.1 >>> p.2 % 2 ^ 32)).length -
        ((items.take i).map Prod.snd).sum) =
      (items.map Prod.snd).sum +
        (unaryBits ((items.take i).map fun p => p.1 >>> p.2 % 2 ^ 32)).length := by
    omega
  have hdiv : (((items.take i).map Prod.snd).sum +
      ((items.map Prod.snd).sum +
        (unaryBits ((items.take i).map fun p => p.1 >>> p.2 % 2 ^ 32)).length -
        ((items.take i).map Prod.snd).sum)) / 64 <
      ((buildStream items).build).data.length := by
    show (((items.take i).map Prod.snd).sum +
      ((items.map Prod.snd).sum +
        (unaryBits ((items.take i).map fun p => p.1 >>> p.2 % 2 ^ 32)).length -
        ((items.take i).map Prod.snd).sum)) / 64 < (buildStream items).data.length
    omega
  have hrr := @readReset_succeeds ((buildStream items).build)
    (((items.take i).map Prod.snd).sum)
    ((items.map Prod.snd).sum +
      (unaryBits ((items.take i).map fun p => p.1 >>> p.2 % 2 ^ 32)).length -
      ((items.take i).map Prod.snd).sum) hdiv
  rw [hoff] at hrr
  obtain ⟨hrd, hrfo, hrinv, _⟩ := readReset_invAt hrr
  rw [hoff] at hrinv
  have hI4 : items = items.take i ++ items.drop i ++ [] := by
    rw [List.append_nil, List.take_append_drop]
  have hmd := map_fst_drop i items
  refine ⟨_, hrr, rfl, rfl, rfl, rfl, ?_⟩
  rw [← hmd]
  exact ⟨_, decode_mid (items.take i) (items.drop i) [] items hI4 hvalid _
    ((items.map Prod.snd).sum +
      (unaryBits ((items.take i).map fun p => p.1 >>> p.2 % 2 ^ 32)).length)
    rfl
    (by
      show ((items.take i).map Prod.snd).sum = (fixedBits (items.take i)).length
      rw [fixedBits_length])
    (by rw [fixedBits_length])
    hrinv⟩

/-- C4 witness at the two-item stream for (13, 2), (9, 2) with boundary
i = 1. -/
theorem c4_reset_correctness_witness :
    (∀ p ∈ ([(13, 2), (9, 2)] : List (Nat × Nat)),
      p.1 < 2 ^ 64 ∧ p.2 ≤ 57 ∧ p.1 >>> p.2 < 2 ^ 32) ∧
    1 ≤ ([(13, 2), (9, 2)] : List (Nat × Nat)).length ∧
    (∃ st : RState,
      readReset (buildStream [(13, 2), (9, 2)]).build
        (((([(13, 2), (9, 2)] : List (Nat × Nat)).take 1).map Prod.snd).sum)
        (((([(13, 2), (9, 2)] : List (Nat × Nat)).map Prod.snd).sum +
          (unaryBits ((([(13, 2), (9, 2)] : List (Nat × Nat)).take 1).map
            fun p => p.1 >>> p.2 % 2 ^ 32)).length -
          ((([(13, 2), (9, 2)] : List (Nat × Nat)).take 1).map Prod.snd).sum)) = some st ∧
      st.curr_fixed_offset = ((([(13, 2), (9, 2)] : List (Nat × Nat)).take 1).map Prod.snd).sum ∧
      st.curr_window_unary = (buildStream [(13, 2), (9, 2)]).data.getD
          ((((([(13, 2), (9, 2)] : List (Nat × Nat)).map Prod.snd).sum +
            (unaryBits ((([(13, 2), (9, 2)] : List (Nat × Nat)).take 1).map
              fun p => p.1 >>> p.2 % 2 ^ 32)).length)) / 64) 0 >>>
          ((((([(13, 2), (9, 2)] : List (Nat × Nat)).map Prod.snd).sum +
            (unaryBits ((([(13, 2), (9, 2)] : List (Nat × Nat)).take 1).map
              fun p => p.1 >>> p.2 % 2 ^ 32)).length)) % 64) ∧
      st.curr_ptr_unary = (((([(13, 2), (9, 2)] : List (Nat × Nat)).map Prod.snd).sum +
          (unaryBits ((([(13, 2), (9, 2)] : List (Nat × Nat)).take 1).map
            fun p => p.1 >>> p.2 % 2 ^ 32)).length)) / 64 + 1 ∧
      st.valid_lower_bits_unary = ((64 - (((([(13, 2), (9, 2)] : List (Nat × Nat)).map Prod.snd).sum +
          (unaryBits ((([(13, 2), (9, 2)] : List (Nat × Nat)).take 1).map
            fun p => p.1 >>> p.2 % 2 ^ 32)).length)) % 64 : Nat) : Int) ∧
      ∃ stf, decodeList st ((([(13, 2), (9, 2)] : List (Nat × Nat)).drop 1).map Prod.snd) =
        some ((([(13, 2), (9, 2)] : List (Nat × Nat)).map Prod.fst).drop 1, stf)) :=
  ⟨by decide, by decide,
    c4_reset_correctness [(13, 2), (9, 2)] 1 (by decide) (by decide)⟩

/-- C8 witness: readReset on the sealed one-item stream for (3, 2)
establishes the cursor invariant. -/
theorem c8_cursor_invariant_witness :
    (∃ P, InvAt (⟨[7], 0, 1, 1, 62⟩ : RState) P) ∧
    (0 : Int) ≤ 62 ∧ (62 : Int) ≤ 64 :=
  c8_cursor_invariant.1 ((buildStream [(3, 2)]).build) 0 2 ⟨[7], 0, 1, 1, 62⟩ (by decide)

end Sux
